import Mathlib

/-!
# QueueTrack — verification of the data core

A shallow embedding, in Lean 4, of the data-ingestion / validation /
normalization / metrics-recalculation engine of the QueueTrack application
(`src/app.js`), together with theorems settling the frozen claims about it.

Conventions of the embedding:
* JS numbers holding integral data are modelled as `Int`; derived percentage
  fields (produced by floating-point division in JS) are modelled as `ℚ`,
  the usual exact idealization of IEEE arithmetic.
* A JS value that may be `NaN` (result of `parseInt`) is an `Option Int`,
  `none` standing for `NaN`; a field that may be `null` is likewise an
  `Option`.
* Records are plain structures; in-place mutation is rendered as explicit
  state passing.  `allTests`, `importHistory` and the two history stacks
  form the `AppState` structure.
* Dates flowing into `new Date(...)` comparisons are canonical
  `YYYY-MM-DD` strings (the only form the import pipeline stores); the
  comparison key `dateValD` parses exactly those, mapping anything else to
  a fixed default, which coincides with engine behaviour on all datasets
  whose dates are canonical.
-/

/-! ## Data model (`src/app.js` state, §3 of the spec) -/

/-- One test record (`src/app.js`: objects held in `allTests`).  The first
six fields are set by import, the last three only by `recalculateAll`. -/
structure Test where
  email : String
  testingDate : String
  eventName : String
  queueNumber : Int
  queueAnchor : Option Int
  importId : String
  testingNum : Int
  queuePercent : ℚ
  queueChangePercent : ℚ
  deriving Repr, DecidableEq

/-- One entry of `importHistory` (`src/app.js` line 504). -/
structure ImportBatch where
  id : String
  filename : String
  date : String
  testCount : Nat
  deriving Repr, DecidableEq

/-- `MAX_HISTORY_SIZE` (`src/app.js` line 6). -/
def MAX_HISTORY_SIZE : Nat := 20

/-- The module-scope mutable state of `src/app.js`: `allTests`,
`importHistory`, `undoHistory`, `redoHistory`. -/
structure AppState where
  allTests : List Test
  importHistory : List ImportBatch
  undoHistory : List (List Test)
  redoHistory : List (List Test)
  deriving Repr, DecidableEq

/-! ## Date normalizer (`normalizeDate`, `src/app.js` lines 619-667) -/

/-- JS `String.prototype.trim()`: strips leading and trailing whitespace
(modelled with `Char.isWhitespace`). -/
def jsTrim (s : String) : String :=
  ⟨((s.toList.dropWhile Char.isWhitespace).reverse.dropWhile Char.isWhitespace).reverse⟩

/-- A separator accepted by the date regexes: `/`, `-` or `.`. -/
def isDateSep (c : Char) : Bool := c == '/' || c == '-' || c == '.'

/-- Digit-run value, `parseInt` on a pure digit string. -/
def digitsToNat (ds : List Char) : Nat :=
  ds.foldl (fun acc c => acc * 10 + (c.toNat - '0'.toNat)) 0

/-- Splits a character list into three non-empty digit runs separated by
single separator characters, consuming the whole input: the common shape of
the two regexes `^(\d+)[/. -](\d+)[/. -](\d+)$` in `normalizeDate` (digit
counts are checked by the caller). -/
def splitDMY (cs : List Char) : Option (List Char × List Char × List Char) :=
  match cs.span Char.isDigit with
  | (d1, s1 :: rest1) =>
    if isDateSep s1 then
      match rest1.span Char.isDigit with
      | (d2, s2 :: rest2) =>
        if isDateSep s2 then
          match rest2.span Char.isDigit with
          | (d3, []) =>
            if d1 ≠ [] ∧ d2 ≠ [] ∧ d3 ≠ [] then some (d1, d2, d3) else none
          | (_, _ :: _) => none
        else none
      | (_, []) => none
    else none
  | (_, []) => none

/-- Gregorian leap-year test, as computed by the JS `Date` object. -/
def isLeapYear (y : Nat) : Bool := y % 4 == 0 && (y % 100 != 0 || y % 400 == 0)

/-- Number of days of month `m` (1-12) of year `y`. -/
def daysInMonth (y m : Nat) : Nat :=
  if m = 2 then (if isLeapYear y then 29 else 28)
  else if m = 4 ∨ m = 6 ∨ m = 9 ∨ m = 11 then 30
  else 31

/-- Left-pads the decimal form of `n` to two digits:
`String(n).padStart(2, '0')`. -/
def pad2 (n : Nat) : String :=
  if n < 10 then "0" ++ toString n else toString n

/-- The tail of `normalizeDate` (`src/app.js` lines 658-666): range checks,
the real-calendar-date round-trip check through `new Date(year, month-1,
day)` (equivalent, for a month in 1-12 and a year in 1900-2100, to
`day ≤ daysInMonth`), and canonical `YYYY-MM-DD` formatting. -/
def finishDate (year month day : Nat) : Option String :=
  if month < 1 ∨ month > 12 ∨ day < 1 ∨ day > 31 ∨ year < 1900 ∨ year > 2100 then
    none
  else if day > daysInMonth year month then
    none
  else
    some (toString year ++ "-" ++ pad2 month ++ "-" ++ pad2 day)

/-- Two-digit year widening (`src/app.js` line 640):
`if (c < 100) c += c < 50 ? 2000 : 1900`. -/
def fixYear (c : Nat) : Nat :=
  if c < 100 then (if c < 50 then c + 2000 else c + 1900) else c

/-- `normalizeDate` (`src/app.js` lines 619-667): trims, matches either the
year-first regex `^(\d{4})[/. -](\d{1,2})[/. -](\d{1,2})$` or the other-order
regex `^(\d{1,2})[/. -](\d{1,2})[/. -](\d{2,4})$`, disambiguates month/day,
then validates and formats. -/
def normalizeDate (s : String) : Option String :=
  match splitDMY (jsTrim s).toList with
  | none => none
  | some (d1, d2, d3) =>
    if d1.length = 4 ∧ 1 ≤ d2.length ∧ d2.length ≤ 2 ∧ 1 ≤ d3.length ∧ d3.length ≤ 2 then
      finishDate (digitsToNat d1) (digitsToNat d2) (digitsToNat d3)
    else if 1 ≤ d1.length ∧ d1.length ≤ 2 ∧ 1 ≤ d2.length ∧ d2.length ≤ 2 ∧
        2 ≤ d3.length ∧ d3.length ≤ 4 then
      let a := digitsToNat d1
      let b := digitsToNat d2
      let c := fixYear (digitsToNat d3)
      if a > 12 ∧ b ≤ 12 then
        finishDate c b a
      else if b > 12 ∧ a ≤ 12 then
        finishDate c a b
      else
        finishDate c a b
    else none

/-- `isValidDate` (`src/app.js` line 669). -/
def isValidDate (s : String) : Bool := (normalizeDate s).isSome

/-! ## The date comparison key used by the sorting comparators

`recalculateAll` and `getOverallChange` compare records by
`new Date(a.testingDate) - new Date(b.testingDate)`.  On the canonical
zero-padded `YYYY-MM-DD` strings the import pipeline stores, the timestamp
order coincides with the numeric order of `y · 10000 + m · 100 + d`.  A
string that the `Date` parser would reject (timestamp `NaN`) is mapped to a
default key, matching the engine's treat-as-tie behaviour only up to its
implementation-defined handling of `NaN` comparators. -/

/-- Parses a canonical date string to its comparison key. -/
def dateVal (s : String) : Option Int :=
  match splitDMY s.toList with
  | none => none
  | some (d1, d2, d3) =>
    if d1.length = 4 ∧ d2.length = 2 ∧ d3.length = 2 then
      let y := digitsToNat d1
      let m := digitsToNat d2
      let d := digitsToNat d3
      if 1 ≤ m ∧ m ≤ 12 ∧ 1 ≤ d ∧ d ≤ daysInMonth y m then
        some ((y : Int) * 10000 + (m : Int) * 100 + (d : Int))
      else none
    else none

/-- Total comparison key (unparsable dates collapse to one default key). -/
def dateValD (s : String) : Int := (dateVal s).getD 0

/-! ## Record validator (`isValidEmail`, `validateTestData`,
`src/app.js` lines 613-711) -/

/-- `isValidEmail` (`src/app.js` line 613): the test of the regex
`^[^\s@]+@[^\s@]+\.[^\s@]+$` — exactly one `@`; a non-empty,
whitespace-free local part; a whitespace-free domain containing a `.` that
is neither its first nor its last character. -/
def isValidEmail (s : String) : Bool :=
  match s.toList.splitOn '@' with
  | [l, d] =>
    !l.isEmpty && l.all (fun c => !c.isWhitespace) &&
      d.all (fun c => !c.isWhitespace) && ((d.drop 1).dropLast).contains '.'
  | _ => false

/-- Decimal value of a hexadecimal digit, or `none`. Code points: the
digits are 48–57, lowercase letters start at 97, uppercase at 65. -/
def hexVal (c : Char) : Option Nat :=
  let k := c.toNat
  if 48 ≤ k ∧ k ≤ 57 then some (k - 48)
  else if 97 ≤ k ∧ k ≤ 102 then some (k - 87)
  else if 65 ≤ k ∧ k ≤ 70 then some (k - 55)
  else none

/-- JS `parseInt(s)` with no radix argument: skips leading whitespace,
reads an optional sign, then either a `0x`/`0X`-prefixed hexadecimal or a
decimal digit prefix, ignoring trailing junk; `none` models `NaN`. -/
def jsParseInt (s : String) : Option Int :=
  let cs := s.toList.dropWhile Char.isWhitespace
  let (sign, cs) : Int × List Char :=
    match cs with
    | '-' :: rest => (-1, rest)
    | '+' :: rest => (1, rest)
    | _ => (1, cs)
  match cs with
  | '0' :: x :: rest =>
    if x == 'x' || x == 'X' then
      let hs := rest.takeWhile (fun c => (hexVal c).isSome)
      if hs.isEmpty then none
      else some (sign * (hs.foldl (fun acc c => acc * 16 + ((hexVal c).getD 0)) 0 : Nat))
    else
      some (sign * (digitsToNat ((('0' :: x :: rest).takeWhile Char.isDigit)) : Nat))
  | cs' =>
    let ds := cs'.takeWhile Char.isDigit
    if ds.isEmpty then none else some (sign * (digitsToNat ds : Nat))

/-- A candidate record as built by `parseCSV` before validation
(`src/app.js` lines 747-753).  `queueNumber = none` models `NaN`;
`queueAnchor = none` models `null` and `queueAnchor = some none` a present
but `NaN` anchor. -/
structure RawTest where
  email : String
  testingDate : String
  eventName : String
  queueNumber : Option Int
  queueAnchor : Option (Option Int)
  deriving Repr, DecidableEq

/-- Rendering of a possibly-`NaN` JS number in a template literal. -/
def numToStr : Option Int → String
  | none => "NaN"
  | some n => toString n

/-- `validateTestData` (`src/app.js` lines 673-711): every check is
evaluated and the error messages accumulate in source order.  JS
comparisons involving `NaN` are false, hence the `Option` matches. -/
def validateTestData (t : RawTest) (rowIndex : Nat) : List String :=
  let rw := "Row " ++ toString rowIndex ++ ": "
  (if !(isValidEmail t.email) then
      [rw ++ "Invalid email format \"" ++ t.email ++ "\""] else []) ++
  (if !(isValidDate t.testingDate) then
      [rw ++ "Invalid date \"" ++ t.testingDate ++
        "\" (use YYYY-MM-DD, MM/DD/YYYY, or DD-MM-YYYY)"] else []) ++
  (if t.eventName.length = 0 then [rw ++ "Event name cannot be empty"] else []) ++
  (if t.eventName.length > 200 then
      [rw ++ "Event name too long (max 200 characters)"] else []) ++
  (if (match t.queueNumber with | none => true | some n => n < 0) then
      [rw ++ "Invalid queue number \"" ++ numToStr t.queueNumber ++ "\""] else []) ++
  (if (match t.queueNumber with | none => false | some n => n > 10000000) then
      [rw ++ "Queue number too large (max 10,000,000)"] else []) ++
  (match t.queueAnchor with
   | none => []
   | some qa =>
     (if (match qa with | none => true | some a => a < 0) then
         [rw ++ "Invalid queue anchor \"" ++ numToStr qa ++ "\""] else []) ++
     (if (match qa with | none => false | some a => a > 10000000) then
         [rw ++ "Queue anchor too large (max 10,000,000)"] else []) ++
     (if (match qa, t.queueNumber with
          | some a, some n => decide (a < n)
          | _, _ => false) then
         [rw ++ "Queue anchor (" ++ numToStr qa ++ ") cannot be less than queue number (" ++
           numToStr t.queueNumber ++ ")"] else []))

/-! ## CSV ingestor (`parseCSV`, `src/app.js` lines 713-779)

The input is modelled after `Papa.parse(text, {header: true,
skipEmptyLines: true, ...})`: the (trimmed) header list `fields` and one
association list per data row mapping a header name to the raw cell text.
A missing cell and an empty cell are both read back as `""`, which is
exactly how the JS falsiness tests on `row[...]` treat them. -/

/-- One parsed CSV data row: header name to raw cell value. -/
abbrev CsvRow := List (String × String)

/-- The result of `Papa.parse`: `meta.fields` plus `data`. -/
structure Csv where
  fields : List String
  data : List CsvRow
  deriving Repr, DecidableEq

/-- Cell access `row[h]`, reading a missing cell as `""`. -/
def rowGet (row : CsvRow) (h : String) : String := (row.lookup h).getD ""

/-- The candidate object built for one surviving row
(`src/app.js` lines 744-753). -/
def buildRaw (row : CsvRow) : RawTest :=
  let rawDate := jsTrim (rowGet row "Testing Date")
  { email := jsTrim (rowGet row "Email")
    testingDate := (normalizeDate rawDate).getD rawDate
    eventName := jsTrim (rowGet row "Event Name")
    queueNumber := jsParseInt (rowGet row "Queue Number")
    queueAnchor :=
      if rowGet row "Queue Anchor" ≠ "" then some (jsParseInt (rowGet row "Queue Anchor"))
      else none }

/-- A validated candidate as a stored record; on the only path that uses
this, validation guarantees the `Option`s are populated, so the `getD 0`
defaults are never exercised.  `importId` is assigned later by
`importCSV`; the derived fields are set only by `recalculateAll`. -/
def rawToTest (r : RawTest) : Test :=
  { email := r.email, testingDate := r.testingDate, eventName := r.eventName
    queueNumber := r.queueNumber.getD 0
    queueAnchor := match r.queueAnchor with | none => none | some a => some (a.getD 0)
    importId := "", testingNum := 0, queuePercent := 0, queueChangePercent := 0 }

/-- The row loop of `parseCSV` (`src/app.js` lines 738-763): skips rows
with a missing/empty required cell, validates the rest, accumulating
surviving records and validation errors in source order. -/
def collectRows : List CsvRow → Nat → List Test × List String
  | [], _ => ([], [])
  | row :: rest, rowIndex =>
    if rowGet row "Email" = "" ∨ rowGet row "Testing Date" = "" ∨
        rowGet row "Event Name" = "" ∨ rowGet row "Queue Number" = "" then
      collectRows rest (rowIndex + 1)
    else
      let raw := buildRaw row
      let errors := validateTestData raw rowIndex
      let (ts, es) := collectRows rest (rowIndex + 1)
      if errors ≠ [] then (ts, errors ++ es) else (rawToTest raw :: ts, es)

/-- The `ValidationError` message (`src/app.js` lines 765-772): the first
ten descriptors plus a count of the omitted ones. -/
def validationErrorMsg (errs : List String) : String :=
  let errorMsg := String.intercalate "\n" (errs.take 10)
  let remaining : Int := (errs.length : Int) - 10
  "Found " ++ toString errs.length ++ " validation error(s):\n\n" ++ errorMsg ++
    (if remaining > 0 then "\n\n...and " ++ toString remaining ++ " more errors" else "")

/-- `parseCSV` (`src/app.js` lines 713-779).  `Except.error` models a
thrown exception. -/
def parseCSV (csv : Csv) : Except String (List Test) :=
  match ["Email", "Testing Date", "Event Name", "Queue Number"].find?
      (fun req => !(csv.fields.contains req)) with
  | some req => .error ("Missing required column: " ++ req)
  | none =>
    let (tests, validationErrors) := collectRows csv.data 2
    if validationErrors ≠ [] then .error (validationErrorMsg validationErrors)
    else if tests = [] then .error "No valid data rows found in CSV"
    else .ok tests

/-- Decidable equality of `Except` results, for concrete evaluations. -/
instance {ε α : Type} [DecidableEq ε] [DecidableEq α] : DecidableEq (Except ε α) := fun x y =>
  match x, y with
  | .error a, .error b =>
    if h : a = b then .isTrue (congrArg Except.error h)
    else .isFalse (fun hh => h (Except.error.inj hh))
  | .ok a, .ok b =>
    if h : a = b then .isTrue (congrArg Except.ok h)
    else .isFalse (fun hh => h (Except.ok.inj hh))
  | .error _, .ok _ => .isFalse Except.noConfusion
  | .ok _, .error _ => .isFalse Except.noConfusion

/-! ## Anchor resolver (`processNewTests`, `src/app.js` lines 781-802) -/

/-- Comma insertion after every third digit of a reversed digit list. -/
def groupDigitsRev : List Char → Nat → List Char
  | [], _ => []
  | c :: rest, k =>
    if k = 3 then ',' :: c :: groupDigitsRev rest 1
    else c :: groupDigitsRev rest (k + 1)

/-- `Number.prototype.toLocaleString()` (en-US): decimal digits grouped in
threes by commas. -/
def groupDigits (ds : List Char) : List Char :=
  (groupDigitsRev ds.reverse 0).reverse

/-- `anchor.toLocaleString()` as interpolated into the warning message. -/
def toLocaleString (n : Int) : String :=
  (if n < 0 then "-" else "") ++ ⟨groupDigits (toString n.natAbs).toList⟩

/-- The warning pushed for one event (`src/app.js` line 794). -/
def anchorWarning (event : String) (anchor : Int) : String :=
  "No anchor for \"" ++ event ++ "\", using " ++ toLocaleString anchor

/-- `Math.max(...nums)` for the non-empty lists produced by the event
grouping (the empty case, `-Infinity` in JS, is unreachable). -/
def maxList : List Int → Int
  | [] => 0
  | x :: xs => xs.foldl max x

/-- `Math.ceil(m / 1000) * 1000`. -/
def ceilTo1000 (m : Int) : Int := ⌈(m : ℚ) / 1000⌉ * 1000

/-- One step of the event-grouping loop (`src/app.js` lines 785-790):
`if (!events[name]) events[name] = []; events[name].push(qn)` on an
insertion-ordered association table. -/
def addEvent (evs : List (String × List Int)) (name : String) (qn : Int) :
    List (String × List Int) :=
  if evs.any (fun p => p.1 == name) then
    evs.map (fun p => if p.1 == name then (p.1, p.2 ++ [qn]) else p)
  else evs ++ [(name, [qn])]

/-- The `events` table: queue numbers of the anchor-less records of each
event, keyed in first-occurrence order. -/
def buildEvents (newTests : List Test) : List (String × List Int) :=
  newTests.foldl
    (fun evs t => if t.queueAnchor = none then addEvent evs t.eventName t.queueNumber else evs)
    []

/-- The `for (const [event, nums] of Object.entries(events))` loop
(`src/app.js` lines 792-798): per event, computes the inferred anchor,
pushes one warning, and assigns the anchor to that event's anchor-less
records. -/
def applyAnchors : List (String × List Int) → List Test → List String × List Test
  | [], batch => ([], batch)
  | (event, nums) :: rest, batch =>
    let anchor := ceilTo1000 (maxList nums)
    let batch' := batch.map (fun t =>
      if t.eventName == event && t.queueAnchor == none then
        { t with queueAnchor := some anchor }
      else t)
    let (ws, final) := applyAnchors rest batch'
    (anchorWarning event anchor :: ws, final)

/-- `processNewTests` (`src/app.js` lines 781-802): resolves missing
anchors inside the batch and appends it to `allTests`; returns the warning
list together with the updated `allTests`. -/
def processNewTests (allTests : List Test) (newTests : List Test) :
    List String × List Test :=
  let (warnings, resolved) := applyAnchors (buildEvents newTests) newTests
  (warnings, allTests ++ resolved)

/-! ## Metrics recalculator (`recalculateAll`, `src/app.js` lines 804-822)

The JS function mutates the records of `allTests` in place, group by
group; the functional rendering pairs every record with its position in
`allTests`, computes each account's derived values from the stably
date-sorted group, and rebuilds the list in its original order. -/

/-- The comparator `(a, b) => new Date(a.testingDate) - new Date(b.testingDate)`
on position-tagged records, as a total preorder. -/
def dateLE (a b : Nat × Test) : Prop :=
  dateValD a.2.testingDate ≤ dateValD b.2.testingDate

instance : DecidableRel dateLE := fun a b => by unfold dateLE; infer_instance

instance : IsTotal (Nat × Test) dateLE :=
  ⟨fun a b => le_total (dateValD a.2.testingDate) (dateValD b.2.testingDate)⟩

instance : IsTrans (Nat × Test) dateLE :=
  ⟨fun _ _ _ h h' => le_trans h h'⟩

/-- `groups[t.email].push(t)`: the records of one account, paired with
their positions in `allTests`, in `allTests` order. -/
def accountGroup (ts : List Test) (e : String) : List (Nat × Test) :=
  ts.enum.filter (fun p => p.2.email == e)

/-- `groups[email].sort(...)`: JS `Array.prototype.sort` is stable, so the
group is stably sorted by the date comparator. -/
def sortedGroup (ts : List Test) (e : String) : List (Nat × Test) :=
  List.insertionSort dateLE (accountGroup ts e)

/-- `queuePercent` of one record (`src/app.js` lines 816-818):
`(t.queueAnchor && t.queueAnchor > 0) ? (t.queueNumber / t.queueAnchor) * 100 : 0`. -/
def percentOf (t : Test) : ℚ :=
  match t.queueAnchor with
  | some a => if a > 0 then ((t.queueNumber : ℚ) / (a : ℚ)) * 100 else 0
  | none => 0

/-- The assignment loop over one sorted group (`src/app.js` lines 813-820),
generalized to start at index `i` with `prev` the `queuePercent` assigned
to the previous record: pairs each original position with the derived
`(testingNum, queuePercent, queueChangePercent)` triple. -/
def deriveSorted (i : Nat) (prev : ℚ) : List (Nat × Test) → List (Nat × (Int × ℚ × ℚ))
  | [] => []
  | (j, t) :: rest =>
    let p := percentOf t
    (j, ((i : Int) + 1, p, if i > 0 then p - prev else 0)) :: deriveSorted (i + 1) p rest

/-- The derived-field assignment of the account of `e`, keyed by position
in `allTests`. -/
def assignFor (ts : List Test) (e : String) : List (Nat × (Int × ℚ × ℚ)) :=
  deriveSorted 0 0 (sortedGroup ts e)

/-- Overwrites the three derived fields of a record. -/
def applyDerived (t : Test) (v : Int × ℚ × ℚ) : Test :=
  { t with testingNum := v.1, queuePercent := v.2.1, queueChangePercent := v.2.2 }

/-- `recalculateAll` (`src/app.js` lines 804-822) on the `allTests` list:
every record receives the derived fields computed from its own account's
sorted group (the fallback branch is unreachable: every position occurs in
its own account's assignment). -/
def recalcTests (ts : List Test) : List Test :=
  ts.enum.map (fun p =>
    match (assignFor ts p.2.email).lookup p.1 with
    | some v => applyDerived p.2 v
    | none => p.2)

/-- `recalculateAll` as a state transition: it reads and writes only
`allTests`. -/
def recalculateAll (s : AppState) : AppState :=
  { s with allTests := recalcTests s.allTests }

/-! ## Overall change metric (`getOverallChange`, `src/app.js` lines
1771-1775) -/

/-- The comparator on plain records used by `getOverallChange`. -/
def dateLE' (a b : Test) : Prop :=
  dateValD a.testingDate ≤ dateValD b.testingDate

instance : DecidableRel dateLE' := fun a b => by unfold dateLE'; infer_instance

instance : IsTotal Test dateLE' :=
  ⟨fun a b => le_total (dateValD a.testingDate) (dateValD b.testingDate)⟩

instance : IsTrans Test dateLE' :=
  ⟨fun _ _ _ h h' => le_trans h h'⟩

/-- `allTests.filter(t => t.email === email).sort(byDate)`
(`src/app.js` line 1772). -/
def chronoTests (ts : List Test) (email : String) : List Test :=
  List.insertionSort dateLE' (ts.filter (fun t => t.email == email))

/-- `getOverallChange` (`src/app.js` lines 1771-1775). -/
def getOverallChange (ts : List Test) (email : String) : Option ℚ :=
  let tests := chronoTests ts email
  if h : tests.length < 2 then none
  else
    some ((tests.get ⟨tests.length - 2, by omega⟩).queuePercent -
          (tests.get ⟨tests.length - 1, by omega⟩).queuePercent)

/-! ## History manager (`saveToHistory`/`undo`/`redo`,
`src/app.js` lines 419-454) and the mutating operations -/

/-- `saveToHistory` (`src/app.js` lines 419-426): pushes a deep copy of
`allTests`, evicts the front entry when the bound is exceeded, and clears
the redo stack. -/
def saveToHistory (s : AppState) : AppState :=
  let u := s.undoHistory ++ [s.allTests]
  { s with
    undoHistory := if u.length > MAX_HISTORY_SIZE then u.drop 1 else u
    redoHistory := [] }

/-- `undo` (`src/app.js` lines 428-440): a no-op on an empty stack;
otherwise pushes the current tests onto the redo stack, pops the undo
stack into `allTests` and recalculates. -/
def undoOp (s : AppState) : AppState :=
  match s.undoHistory.getLast? with
  | none => s
  | some prev =>
    { s with
      redoHistory := s.redoHistory ++ [s.allTests]
      allTests := recalcTests prev
      undoHistory := s.undoHistory.dropLast }

/-- `redo` (`src/app.js` lines 442-454), symmetric to `undo`. -/
def redoOp (s : AppState) : AppState :=
  match s.redoHistory.getLast? with
  | none => s
  | some nxt =>
    { s with
      undoHistory := s.undoHistory ++ [s.allTests]
      allTests := recalcTests nxt
      redoHistory := s.redoHistory.dropLast }

/-- The successful-parse tail of `importCSV` (`src/app.js` lines 472-528):
snapshot, tag the batch with the import id, resolve anchors and append,
log the import batch, recalculate.  A parse failure is caught after no
state was touched.  (`importId`/`filename`/`dateStr` model the
environment-supplied id, file name and timestamp.) -/
def importCSVOp (s : AppState) (csv : Csv) (importId filename dateStr : String) : AppState :=
  match parseCSV csv with
  | .error _ => s
  | .ok tests =>
    if tests.length = 0 then s
    else
      let s1 := saveToHistory s
      let tagged := tests.map (fun t => { t with importId := importId })
      let (_, all') := processNewTests s1.allTests tagged
      recalculateAll
        { s1 with
          allTests := all'
          importHistory :=
            s1.importHistory ++ [⟨importId, filename, dateStr, tests.length⟩] }

/-- The confirmed branch of `clearAllData` (`src/app.js` lines 403-416):
snapshot, then empty `allTests` (the import log is not touched). -/
def clearAllOp (s : AppState) : AppState :=
  let s1 := saveToHistory s
  { s1 with allTests := [] }

/-- The confirmed branch of `removeImport` (`src/app.js` lines 586-610):
if the id is logged, snapshot, drop the records carrying it, drop its log
entry, recalculate. -/
def removeImportOp (s : AppState) (importId : String) : AppState :=
  match s.importHistory.find? (fun i => i.id == importId) with
  | none => s
  | some _ =>
    let s1 := saveToHistory s
    recalculateAll
      { s1 with
        allTests := s1.allTests.filter (fun t => !(t.importId == importId))
        importHistory := s1.importHistory.filter (fun i => !(i.id == importId)) }

/-! ## Statement-side definitions used by the claims -/

/-- The six fields of a record that import sets and `recalculateAll` must
not touch. -/
def baseFields (t : Test) : String × String × String × Int × Option Int × String :=
  (t.email, t.testingDate, t.eventName, t.queueNumber, t.queueAnchor, t.importId)

/-- The fields `recalculateAll` actually reads when computing derived
values. -/
def vitalFields (t : Test) : String × String × Int × Option Int :=
  (t.email, t.testingDate, t.queueNumber, t.queueAnchor)

/-- The history-manager operations of claim C9. -/
inductive HistOp where
  | snapshot
  | undo
  | redo
  deriving Repr, DecidableEq

/-- Dispatch of one history operation. -/
def applyHistOp (s : AppState) : HistOp → AppState
  | .snapshot => saveToHistory s
  | .undo => undoOp s
  | .redo => redoOp s

/-- A sequence of history operations, applied in order. -/
def runHist (s : AppState) (ops : List HistOp) : AppState :=
  ops.foldl applyHistOp s

/-- The queue numbers of the anchor-less records of one event of a batch,
in batch order. -/
def anchorlessNums (batch : List Test) (ev : String) : List Int :=
  (batch.filter (fun t => t.eventName == ev && t.queueAnchor == none)).map Test.queueNumber

/-- The anchor the resolver infers for one event of a batch:
`ceil(max(queueNumber) / 1000) * 1000` over its anchor-less records. -/
def eventAnchor (batch : List Test) (ev : String) : Int :=
  ceilTo1000 (maxList (anchorlessNums batch ev))

/-- The distinct event names that own at least one anchor-less record of
the batch, in first-occurrence order (the key order of the JS `events`
object). -/
def anchorlessEventKeys (batch : List Test) : List String :=
  batch.foldl
    (fun acc t =>
      if t.queueAnchor = none ∧ ¬ acc.contains t.eventName then acc ++ [t.eventName] else acc)
    []

/-- The three user-visible dataset mutations of claim C1. -/
inductive Mutation where
  | importOp (csv : Csv) (importId filename dateStr : String)
  | clearAll
  | removeImport (importId : String)

/-- Dispatch of one mutation to its handler. -/
def applyMutation (s : AppState) : Mutation → AppState
  | .importOp csv importId filename dateStr => importCSVOp s csv importId filename dateStr
  | .clearAll => clearAllOp s
  | .removeImport importId => removeImportOp s importId

/-- The mutation actually fires (its handler does not bail out early):
an import parses successfully, a removal names a logged import id;
`clearAll` always fires. -/
def mutationFires (s : AppState) : Mutation → Prop
  | .importOp csv _ _ _ => ∃ ts, parseCSV csv = .ok ts
  | .clearAll => True
  | .removeImport importId => ∃ b ∈ s.importHistory, b.id = importId

/-! ## General list helpers -/

/-- Two distinct members of a list form a pair sublist in one of the two
orders. -/
theorem pair_sublist_of_mem {α} {a b : α} {l : List α} (ha : a ∈ l) (hb : b ∈ l)
    (hne : a ≠ b) : List.Sublist [a, b] l ∨ List.Sublist [b, a] l := by
  induction l with
  | nil => cases ha
  | cons x t ih =>
    rcases List.mem_cons.mp ha with rfl | ha'
    · rcases List.mem_cons.mp hb with rfl | hb'
      · exact absurd rfl hne
      · exact Or.inl ((List.singleton_sublist.mpr hb').cons₂ _)
    · rcases List.mem_cons.mp hb with rfl | hb'
      · exact Or.inr ((List.singleton_sublist.mpr ha').cons₂ _)
      · rcases ih ha' hb' with h | h
        · exact Or.inl (h.cons _)
        · exact Or.inr (h.cons _)

/-- A pair sublist sits at an ordered pair of positions. -/
theorem pair_sublist_exists_index {α} {x y : α} :
    ∀ {l : List α}, List.Sublist [x, y] l →
      ∃ (i j : Fin l.length), i.1 < j.1 ∧ l.get i = x ∧ l.get j = y := by
  intro l h
  induction l with
  | nil => cases h
  | cons z t ih =>
    cases h with
    | cons _ h' =>
      obtain ⟨i, j, hij, hx, hy⟩ := ih h'
      exact ⟨i.succ, j.succ, by simpa using hij, hx, hy⟩
    | cons₂ _ h' =>
      have hy : y ∈ t := List.singleton_sublist.mp h'
      obtain ⟨j, hj⟩ := List.get_of_mem hy
      exact ⟨⟨0, by simp⟩, j.succ, by simp, rfl, hj⟩

/-- In an association list with distinct keys, `lookup` finds the entry at
any position. -/
theorem lookup_eq_of_getElem {β : Type} :
    ∀ (lst : List (Nat × β)), ((lst.map Prod.fst).Nodup) →
      ∀ (k : Fin lst.length), lst.lookup (lst.get k).1 = some (lst.get k).2 := by
  intro lst
  induction lst with
  | nil => intro _ k; exact absurd k.2 (by simp)
  | cons hd tl ih =>
    intro hnd k
    rcases k with ⟨kv, hk⟩
    cases kv with
    | zero => simp [List.lookup]
    | succ k' =>
      have hk' : k' < tl.length := by simpa using hk
      have hmem : (tl[k']).1 ∈ tl.map Prod.fst :=
        List.mem_map_of_mem Prod.fst (List.getElem_mem hk')
      have hne0 : hd.1 ≠ (tl[k']).1 := by
        intro heq
        exact (List.nodup_cons.mp (by simpa using hnd)).1 (heq ▸ hmem)
      have hne : ((tl[k']).1 == hd.1) = false := by
        simpa using (Ne.symm hne0)
      have := ih (List.nodup_cons.mp (by simpa using hnd)).2 ⟨k', hk'⟩
      simpa [List.lookup, List.get_eq_getElem, hne] using this

/-! ## History manager: stack discipline (claim C9) -/

/-- After any snapshot, the last undo entry is the tests it saved and the
redo stack is empty. -/
theorem saveToHistory_spec (s : AppState) :
    (saveToHistory s).undoHistory.getLast? = some s.allTests ∧
    (saveToHistory s).redoHistory = [] := by
  unfold saveToHistory
  refine ⟨?_, rfl⟩
  dsimp only
  split
  · rename_i hgt
    rcases hu : s.undoHistory with _ | ⟨a, t⟩
    · rw [hu] at hgt
      simp [MAX_HISTORY_SIZE] at hgt
    · simp [hu, List.getLast?_concat]
  · simp [List.getLast?_concat]

/-- One history operation preserves the combined stack budget. -/
theorem applyHistOp_budget (s : AppState) (op : HistOp)
    (h : s.undoHistory.length + s.redoHistory.length ≤ MAX_HISTORY_SIZE) :
    (applyHistOp s op).undoHistory.length + (applyHistOp s op).redoHistory.length ≤
      MAX_HISTORY_SIZE := by
  cases op with
  | snapshot =>
    unfold applyHistOp saveToHistory
    simp only [MAX_HISTORY_SIZE] at h ⊢
    split <;> rename_i hcond <;>
      simp only [List.length_drop, List.length_append, List.length_singleton,
        List.length_nil] at hcond ⊢ <;>
      omega
  | undo =>
    unfold applyHistOp undoOp
    rcases hl : s.undoHistory.getLast? with _ | prev
    · exact h
    · have hne : s.undoHistory ≠ [] := by
        intro he
        rw [he] at hl
        exact Option.noConfusion hl
      have : 0 < s.undoHistory.length := List.length_pos.mpr hne
      simp only [List.length_dropLast, List.length_append, List.length_singleton]
      omega
  | redo =>
    unfold applyHistOp redoOp
    rcases hl : s.redoHistory.getLast? with _ | nxt
    · exact h
    · have hne : s.redoHistory ≠ [] := by
        intro he
        rw [he] at hl
        exact Option.noConfusion hl
      have : 0 < s.redoHistory.length := List.length_pos.mpr hne
      simp only [List.length_dropLast, List.length_append, List.length_singleton]
      omega

/-- The budget is preserved along any operation sequence. -/
theorem runHist_budget (ops : List HistOp) :
    ∀ (s : AppState), s.undoHistory.length + s.redoHistory.length ≤ MAX_HISTORY_SIZE →
      (runHist s ops).undoHistory.length + (runHist s ops).redoHistory.length ≤
        MAX_HISTORY_SIZE := by
  induction ops with
  | nil => intro s h; exact h
  | cons op rest ih =>
    intro s h
    exact ih _ (applyHistOp_budget s op h)

/-- C9: starting from empty stacks, no sequence of `snapshot()`, `undo()`,
`redo()` ever grows the undo stack beyond `MAX_HISTORY_SIZE` (= 20)
entries; moreover every `snapshot()` unconditionally empties the redo
stack, and a `snapshot()` taken with exactly 20 undo entries present
evicts the oldest (front) entry, FIFO-fashion, while pushing the current
tests on the back. -/
theorem history_bound_and_fifo :
    (∀ (ts : List Test) (imps : List ImportBatch) (ops : List HistOp),
      (runHist ⟨ts, imps, [], []⟩ ops).undoHistory.length ≤ MAX_HISTORY_SIZE) ∧
    (∀ s : AppState,
      (saveToHistory s).redoHistory = [] ∧
      (s.undoHistory.length = MAX_HISTORY_SIZE →
        (saveToHistory s).undoHistory = s.undoHistory.tail ++ [s.allTests])) := by
  constructor
  · intro ts imps ops
    have := runHist_budget ops ⟨ts, imps, [], []⟩ (by simp)
    omega
  · intro s
    refine ⟨rfl, fun hlen => ?_⟩
    unfold saveToHistory
    dsimp only
    rw [if_pos (by simp [hlen, MAX_HISTORY_SIZE])]
    rcases hu : s.undoHistory with _ | ⟨a, t⟩
    · rw [hu] at hlen
      simp [MAX_HISTORY_SIZE] at hlen
    · simp

/-- Witness for C9 at concrete inputs: 21 snapshots from empty stacks leave
at most 20 entries, and a snapshot on a full stack of 20 empty snapshots
drops the front one. -/
theorem history_bound_and_fifo_witness :
    (runHist ⟨[], [], [], []⟩ (List.replicate 21 HistOp.snapshot)).undoHistory.length ≤
      MAX_HISTORY_SIZE ∧
    (saveToHistory ⟨[], [], List.replicate 20 [], []⟩).undoHistory =
      (List.replicate 20 ([] : List Test)).tail ++ [[]] :=
  ⟨history_bound_and_fifo.1 [] [] (List.replicate 21 HistOp.snapshot),
   (history_bound_and_fifo.2 ⟨[], [], List.replicate 20 [], []⟩).2 (by decide)⟩

/-! ## CSV import is all-or-nothing (claim C2) -/

/-- C2: whenever `parseCSV` raises (missing required column, any failed
row validation, or zero surviving rows), the import orchestrator leaves
the whole application state — in particular `allTests` and
`importHistory` — exactly as it was. -/
theorem importCSV_all_or_nothing (s : AppState) (csv : Csv)
    (importId filename dateStr : String) (msg : String)
    (h : parseCSV csv = .error msg) :
    (importCSVOp s csv importId filename dateStr).allTests = s.allTests ∧
    (importCSVOp s csv importId filename dateStr).importHistory = s.importHistory ∧
    importCSVOp s csv importId filename dateStr = s := by
  unfold importCSVOp
  rw [h]
  exact ⟨rfl, rfl, rfl⟩

/-- Witness for C2: a concrete CSV whose header lacks `Testing Date`
leaves a concrete non-empty state untouched. -/
theorem importCSV_all_or_nothing_witness :
    (importCSVOp
      ⟨[⟨"a@b.com", "2026-01-15", "Show", 500, some 1000, "i0", 1, 0, 0⟩],
        [⟨"i0", "f.csv", "2026-01-01", 1⟩], [], []⟩
      ⟨["Email", "Event Name", "Queue Number"],
        [[("Email", "x@y.com"), ("Event Name", "E"), ("Queue Number", "5")]]⟩
      "i1" "g.csv" "2026-02-02").allTests =
      [⟨"a@b.com", "2026-01-15", "Show", 500, some 1000, "i0", 1, 0, 0⟩] ∧
    (importCSVOp
      ⟨[⟨"a@b.com", "2026-01-15", "Show", 500, some 1000, "i0", 1, 0, 0⟩],
        [⟨"i0", "f.csv", "2026-01-01", 1⟩], [], []⟩
      ⟨["Email", "Event Name", "Queue Number"],
        [[("Email", "x@y.com"), ("Event Name", "E"), ("Queue Number", "5")]]⟩
      "i1" "g.csv" "2026-02-02").importHistory =
      [⟨"i0", "f.csv", "2026-01-01", 1⟩] := by
  have := importCSV_all_or_nothing
    ⟨[⟨"a@b.com", "2026-01-15", "Show", 500, some 1000, "i0", 1, 0, 0⟩],
      [⟨"i0", "f.csv", "2026-01-01", 1⟩], [], []⟩
    ⟨["Email", "Event Name", "Queue Number"],
      [[("Email", "x@y.com"), ("Event Name", "E"), ("Queue Number", "5")]]⟩
    "i1" "g.csv" "2026-02-02" "Missing required column: Testing Date" (by decide)
  exact ⟨this.1, this.2.1⟩

/-! ## Date normalizer: month/day disambiguation (claim C8) -/

/-- A successful three-way split yields non-empty digit runs. -/
theorem splitDMY_parts_ne_nil {cs : List Char} {d1 d2 d3 : List Char}
    (h : splitDMY cs = some (d1, d2, d3)) : d1 ≠ [] ∧ d2 ≠ [] ∧ d3 ≠ [] := by
  unfold splitDMY at h
  repeat' split at h
  all_goals try exact Option.noConfusion h
  rename_i hcond
  rw [Option.some_inj] at h
  simp only [Prod.mk.injEq] at h
  obtain ⟨rfl, rfl, rfl⟩ := h
  exact hcond

/-- C8: for an input matching the non-year-first pattern
`A<sep>B<sep>C` (1-2 digit `A` and `B`, 2- or 4-digit `C`), `normalizeDate`
reads `A` as the day when `A > 12` and `B ≤ 12`, reads `A` as the month
when `B > 12` and `A ≤ 12`, and defaults to month-first when both are
`≤ 12`; in particular `"13/02/2026" ↦ "2026-02-13"` and
`"02/03/26" ↦ "2026-02-03"`. -/
theorem normalizeDate_disambiguation :
    (∀ (s : String) (d1 d2 d3 : List Char),
      splitDMY (jsTrim s).toList = some (d1, d2, d3) →
      d1.length ≤ 2 → d2.length ≤ 2 → (d3.length = 2 ∨ d3.length = 4) →
      (digitsToNat d1 > 12 ∧ digitsToNat d2 ≤ 12 →
        normalizeDate s =
          finishDate (fixYear (digitsToNat d3)) (digitsToNat d2) (digitsToNat d1)) ∧
      (digitsToNat d2 > 12 ∧ digitsToNat d1 ≤ 12 →
        normalizeDate s =
          finishDate (fixYear (digitsToNat d3)) (digitsToNat d1) (digitsToNat d2)) ∧
      (digitsToNat d1 ≤ 12 ∧ digitsToNat d2 ≤ 12 →
        normalizeDate s =
          finishDate (fixYear (digitsToNat d3)) (digitsToNat d1) (digitsToNat d2))) ∧
    normalizeDate "13/02/2026" = some "2026-02-13" ∧
    normalizeDate "02/03/26" = some "2026-02-03" := by
  refine ⟨?_, by decide, by decide⟩
  intro s d1 d2 d3 h h1 h2 h3
  obtain ⟨hn1, hn2, hn3⟩ := splitDMY_parts_ne_nil h
  have hl1 : 1 ≤ d1.length := List.length_pos.mpr hn1
  have hl2 : 1 ≤ d2.length := List.length_pos.mpr hn2
  have hl3 : 2 ≤ d3.length ∧ d3.length ≤ 4 := by
    rcases h3 with h3 | h3 <;> omega
  have hnorm : normalizeDate s =
      (if digitsToNat d1 > 12 ∧ digitsToNat d2 ≤ 12 then
        finishDate (fixYear (digitsToNat d3)) (digitsToNat d2) (digitsToNat d1)
      else if digitsToNat d2 > 12 ∧ digitsToNat d1 ≤ 12 then
        finishDate (fixYear (digitsToNat d3)) (digitsToNat d1) (digitsToNat d2)
      else
        finishDate (fixYear (digitsToNat d3)) (digitsToNat d1) (digitsToNat d2)) := by
    unfold normalizeDate
    rw [h]
    dsimp only
    rw [if_neg (fun hcon => by omega), if_pos ⟨hl1, h1, hl2, h2, hl3.1, hl3.2⟩]
  refine ⟨fun hc => ?_, fun hc => ?_, fun hc => ?_⟩
  · rw [hnorm, if_pos hc]
  · rw [hnorm, if_neg (fun hcon => by omega), if_pos hc]
  · rw [hnorm, if_neg (fun hcon => by omega)]
    split <;> rfl

/-- Witness for C8: the generic disambiguation rule applied to the
concrete day-first string `"25/07/2024"`. -/
theorem normalizeDate_disambiguation_witness :
    normalizeDate "25/07/2024" =
      finishDate (fixYear (digitsToNat ['2', '0', '2', '4'])) (digitsToNat ['0', '7'])
        (digitsToNat ['2', '5']) :=
  (normalizeDate_disambiguation.1 "25/07/2024" ['2', '5'] ['0', '7'] ['2', '0', '2', '4']
    (by decide) (by decide) (by decide) (Or.inr (by decide))).1 (by decide)

/-! ## Metrics recalculator: structural lemmas -/

/-- `applyDerived` overwrites only derived fields. -/
theorem applyDerived_baseFields (t : Test) (v : Int × ℚ × ℚ) :
    baseFields (applyDerived t v) = baseFields t := rfl

/-- `applyDerived` leaves the fields the recalculator reads untouched. -/
theorem applyDerived_vitalFields (t : Test) (v : Int × ℚ × ℚ) :
    vitalFields (applyDerived t v) = vitalFields t := rfl

/-- Recalculation neither adds nor removes records. -/
theorem recalcTests_length (ts : List Test) : (recalcTests ts).length = ts.length := by
  simp [recalcTests]

/-- Pointwise unfolding of `recalcTests`. -/
theorem recalcTests_getElem (ts : List Test) (i : Nat) (hi : i < ts.length)
    (hi' : i < (recalcTests ts).length) :
    (recalcTests ts).get ⟨i, hi'⟩ =
      (match (assignFor ts (ts.get ⟨i, hi⟩).email).lookup i with
       | some v => applyDerived (ts.get ⟨i, hi⟩) v
       | none => ts.get ⟨i, hi⟩) := by
  simp [recalcTests, List.get_eq_getElem, List.getElem_map, List.getElem_enum]

/-- Projections invariant under `applyDerived` pass through recalculation. -/
theorem recalcTests_map_invariant {β : Type} (f : Test → β)
    (hf : ∀ t v, f (applyDerived t v) = f t) (ts : List Test) :
    (recalcTests ts).map f = ts.map f := by
  unfold recalcTests
  rw [List.map_map]
  have h1 : (f ∘ fun p : Nat × Test =>
      (match (assignFor ts p.2.email).lookup p.1 with
       | some v => applyDerived p.2 v
       | none => p.2)) = fun p : Nat × Test => f p.2 := by
    funext p
    rcases h : (assignFor ts p.2.email).lookup p.1 with _ | v <;> simp [h, hf]
  rw [h1]
  rw [show (fun p : Nat × Test => f p.2) = f ∘ Prod.snd from rfl, ← List.map_map,
    List.enum_map_snd]

/-- C10-style frame: base fields are untouched. -/
theorem recalcTests_map_baseFields (ts : List Test) :
    (recalcTests ts).map baseFields = ts.map baseFields :=
  recalcTests_map_invariant baseFields (fun _ _ => rfl) ts

/-- The recalculation inputs are untouched. -/
theorem recalcTests_map_vitalFields (ts : List Test) :
    (recalcTests ts).map vitalFields = ts.map vitalFields :=
  recalcTests_map_invariant vitalFields (fun _ _ => rfl) ts

/-- Pointwise consequence of a projected-map equality. -/
theorem map_get_congr {α β : Type} {f : α → β} {l l' : List α}
    (h : l.map f = l'.map f) (i : Nat) (hi : i < l.length) (hi' : i < l'.length) :
    f (l.get ⟨i, hi⟩) = f (l'.get ⟨i, hi'⟩) := by
  have := congrArg (fun m : List β => m[i]?) h
  simpa [List.getElem?_map, List.getElem?_eq_getElem, hi, hi',
    List.get_eq_getElem] using this

/-- Membership in a per-account group. -/
theorem mem_accountGroup {ts : List Test} {e : String} {p : Nat × Test} :
    p ∈ accountGroup ts e ↔ ts.get? p.1 = some p.2 ∧ p.2.email = e := by
  unfold accountGroup
  rw [List.mem_filter]
  constructor
  · rintro ⟨hmem, hbeq⟩
    exact ⟨by simpa using List.mem_enum_iff_get?.mp hmem, by simpa using hbeq⟩
  · rintro ⟨hget, hemail⟩
    exact ⟨List.mem_enum_iff_get?.mpr (by simpa using hget), by simpa using hemail⟩

/-- Positions in a group are distinct. -/
theorem accountGroup_keys_nodup (ts : List Test) (e : String) :
    ((accountGroup ts e).map Prod.fst).Nodup :=
  List.Nodup.sublist ((List.filter_sublist ts.enum).map Prod.fst)
    (List.nodup_enum_map_fst ts)

/-- A group lists positions in strictly increasing order. -/
theorem accountGroup_pairwise_fst (ts : List Test) (e : String) :
    (accountGroup ts e).Pairwise (fun p q => p.1 < q.1) := by
  have henum : ts.enum.Pairwise (fun p q : Nat × Test => p.1 < q.1) := by
    have hr := List.pairwise_lt_range ts.length
    rw [← List.enum_map_fst ts] at hr
    exact (List.pairwise_map).mp hr
  exact List.Pairwise.sublist (List.filter_sublist _) henum

/-- Sorting the group permutes it. -/
theorem sortedGroup_perm (ts : List Test) (e : String) :
    (sortedGroup ts e).Perm (accountGroup ts e) :=
  List.perm_insertionSort _ _

/-- The sorted group is sorted by the date key. -/
theorem sortedGroup_sorted (ts : List Test) (e : String) :
    (sortedGroup ts e).Sorted dateLE :=
  List.sorted_insertionSort _ _

/-- Positions in the sorted group are distinct. -/
theorem sortedGroup_keys_nodup (ts : List Test) (e : String) :
    ((sortedGroup ts e).map Prod.fst).Nodup :=
  ((sortedGroup_perm ts e).map Prod.fst).nodup_iff.mpr (accountGroup_keys_nodup ts e)

/-- Facts about any member of the sorted group. -/
theorem sortedGroup_mem_facts {ts : List Test} {e : String} {p : Nat × Test}
    (hp : p ∈ sortedGroup ts e) : ts.get? p.1 = some p.2 ∧ p.2.email = e :=
  mem_accountGroup.mp ((sortedGroup_perm ts e).subset hp)

/-- `deriveSorted` keeps the group's length. -/
theorem deriveSorted_length : ∀ (l : List (Nat × Test)) (i : Nat) (prev : ℚ),
    (deriveSorted i prev l).length = l.length
  | [], _, _ => rfl
  | (_, t) :: rest, i, prev => by
    simp [deriveSorted, deriveSorted_length rest]

/-- `deriveSorted` keeps the group's position keys. -/
theorem deriveSorted_keys : ∀ (l : List (Nat × Test)) (i : Nat) (prev : ℚ),
    (deriveSorted i prev l).map Prod.fst = l.map Prod.fst
  | [], _, _ => rfl
  | (_, t) :: rest, i, prev => by
    simp [deriveSorted, deriveSorted_keys rest]

/-- The entry of `deriveSorted` at a position: the key is the group
entry's key, the assigned `testingNum` is the (1-based) position, the
assigned `queuePercent` is `percentOf` of the entry. -/
theorem deriveSorted_getElem : ∀ (l : List (Nat × Test)) (i : Nat) (prev : ℚ)
    (k : Nat) (hk : k < l.length) (hk' : k < (deriveSorted i prev l).length),
    ∃ c : ℚ, (deriveSorted i prev l).get ⟨k, hk'⟩ =
      ((l.get ⟨k, hk⟩).1,
        (((i + k : Nat) : Int) + 1, percentOf (l.get ⟨k, hk⟩).2, c))
  | [], _, _, k, hk, _ => absurd hk (by simp)
  | (j, t) :: rest, i, prev, 0, hk, hk' => by
    refine ⟨if i > 0 then percentOf t - prev else 0, ?_⟩
    simp [deriveSorted]
  | (j, t) :: rest, i, prev, (k + 1), hk, hk' => by
    have hk2 : k < rest.length := by simpa using hk
    have hk2' : k < (deriveSorted (i + 1) (percentOf t) rest).length := by
      rw [deriveSorted_length]
      exact hk2
    obtain ⟨c, hc⟩ := deriveSorted_getElem rest (i + 1) (percentOf t) k hk2 hk2'
    refine ⟨c, ?_⟩
    have harith : ((i + 1 + k : Nat) : Int) = ((i + (k + 1) : Nat) : Int) := by
      push_cast
      ring
    simp only [deriveSorted, List.get_eq_getElem, List.getElem_cons_succ]
    rw [← harith]
    simpa [List.get_eq_getElem] using hc

/-! ## Metrics recalculator: the master correspondence -/

/-- Master lemma: the record at the `k`-th position of an account's
date-sorted group receives `testingNum = k + 1` and
`queuePercent = percentOf` of itself. -/
theorem recalc_master (ts : List Test) (e : String) (k : Nat)
    (hk : k < (sortedGroup ts e).length) :
    ∃ c : ℚ, ∀ hlt : ((sortedGroup ts e).get ⟨k, hk⟩).1 < (recalcTests ts).length,
      (recalcTests ts).get ⟨((sortedGroup ts e).get ⟨k, hk⟩).1, hlt⟩ =
        applyDerived ((sortedGroup ts e).get ⟨k, hk⟩).2
          ((k : Int) + 1, percentOf ((sortedGroup ts e).get ⟨k, hk⟩).2, c) := by
  obtain ⟨hget, hemail⟩ :=
    sortedGroup_mem_facts (List.get_mem (sortedGroup ts e) k hk)
  obtain ⟨hi, hts⟩ := List.get?_eq_some.mp hget
  have hk' : k < (assignFor ts e).length := by
    unfold assignFor
    rw [deriveSorted_length]
    exact hk
  obtain ⟨c, hc⟩ := deriveSorted_getElem (sortedGroup ts e) 0 0 k hk hk'
  have hkeys : ((assignFor ts e).map Prod.fst).Nodup := by
    unfold assignFor
    rw [deriveSorted_keys]
    exact sortedGroup_keys_nodup ts e
  have hlook := lookup_eq_of_getElem (assignFor ts e) hkeys ⟨k, hk'⟩
  have hc' : (assignFor ts e).get ⟨k, hk'⟩ =
      (((sortedGroup ts e).get ⟨k, hk⟩).1,
        (((0 + k : Nat) : Int) + 1, percentOf ((sortedGroup ts e).get ⟨k, hk⟩).2, c)) := hc
  rw [hc'] at hlook
  refine ⟨c, fun hlt => ?_⟩
  rw [recalcTests_getElem ts _ hi hlt, hts, hemail, hlook]
  simp

/-! ## Metrics recalculator: congruence in the read fields -/

/-- `percentOf` reads only the vital fields. -/
theorem percentOf_congr {t t' : Test} (h : vitalFields t = vitalFields t') :
    percentOf t = percentOf t' := by
  unfold vitalFields at h
  simp only [Prod.mk.injEq] at h
  unfold percentOf
  rw [h.2.2.1, h.2.2.2]

/-- `enumFrom` respects projected-map equality. -/
theorem enumFrom_map_congr {α β : Type} (g : α → β) :
    ∀ (n : Nat) {l l' : List α}, l.map g = l'.map g →
      (l.enumFrom n).map (Prod.map id g) = (l'.enumFrom n).map (Prod.map id g) := by
  intro n l
  induction l generalizing n with
  | nil =>
    intro l' h
    have : l' = [] := by simpa using congrArg List.length h.symm
    subst this
    rfl
  | cons a t ih =>
    intro l' h
    rcases l' with _ | ⟨a', t'⟩
    · exact absurd (congrArg List.length h) (by simp)
    · simp only [List.map_cons, List.cons.injEq] at h
      simp only [List.enumFrom, List.map_cons, Prod.map, id]
      exact by rw [h.1, ih (n + 1) h.2]

/-- Filtering through a predicate that factors through the projection
respects projected-map equality. -/
theorem filter_map_congr {α β : Type} (g : α → β) (p : α → Bool) (q : β → Bool)
    (hpq : ∀ a, p a = q (g a)) :
    ∀ {l l' : List α}, l.map g = l'.map g →
      (l.filter p).map g = (l'.filter p).map g := by
  intro l
  induction l with
  | nil =>
    intro l' h
    have : l' = [] := by simpa using congrArg List.length h.symm
    subst this
    rfl
  | cons a t ih =>
    intro l' h
    rcases l' with _ | ⟨a', t'⟩
    · exact absurd (congrArg List.length h) (by simp)
    · simp only [List.map_cons, List.cons.injEq] at h
      have hpa : p a = p a' := by rw [hpq a, hpq a', h.1]
      rcases hb : p a with _ | _
      · have hb' : p a' = false := hpa.symm.trans hb
        simp only [List.filter_cons, hb, hb', Bool.false_eq_true, if_false]
        exact ih h.2
      · have hb' : p a' = true := hpa.symm.trans hb
        simp only [List.filter_cons, hb, hb', if_true, List.map_cons]
        rw [h.1, ih h.2]

/-- Group extraction respects the recalculation-input projection. -/
theorem accountGroup_congr {ts ts' : List Test}
    (h : ts.map vitalFields = ts'.map vitalFields) (e : String) :
    (accountGroup ts e).map (Prod.map id vitalFields) =
      (accountGroup ts' e).map (Prod.map id vitalFields) := by
  unfold accountGroup
  refine filter_map_congr (Prod.map id vitalFields)
    (fun p => p.2.email == e) (fun p => p.2.1 == e) (fun a => rfl) ?_
  have : ts.enum = ts.enumFrom 0 := rfl
  rw [this, show ts'.enum = ts'.enumFrom 0 from rfl]
  exact enumFrom_map_congr vitalFields 0 h

/-- Sorting respects the recalculation-input projection (the comparator
reads only `testingDate`, a component of the projection). -/
theorem sortedGroup_congr {ts ts' : List Test}
    (h : ts.map vitalFields = ts'.map vitalFields) (e : String) :
    (sortedGroup ts e).map (Prod.map id vitalFields) =
      (sortedGroup ts' e).map (Prod.map id vitalFields) := by
  unfold sortedGroup
  haveI : DecidableRel (fun a b : Nat × String × String × Int × Option Int =>
      dateValD a.2.2.1 ≤ dateValD b.2.2.1) := fun a b => Int.decLe _ _
  rw [List.map_insertionSort dateLE
      (fun a b : Nat × String × String × Int × Option Int =>
        dateValD a.2.2.1 ≤ dateValD b.2.2.1)
      (Prod.map id vitalFields) (accountGroup ts e) (fun a _ b _ => Iff.rfl),
    List.map_insertionSort dateLE
      (fun a b : Nat × String × String × Int × Option Int =>
        dateValD a.2.2.1 ≤ dateValD b.2.2.1)
      (Prod.map id vitalFields) (accountGroup ts' e) (fun a _ b _ => Iff.rfl),
    accountGroup_congr h e]

/-- The derived-value computation reads only the projected fields. -/
theorem deriveSorted_congr : ∀ {l l' : List (Nat × Test)},
    l.map (Prod.map id vitalFields) = l'.map (Prod.map id vitalFields) →
    ∀ (i : Nat) (prev : ℚ), deriveSorted i prev l = deriveSorted i prev l' := by
  intro l
  induction l with
  | nil =>
    intro l' h i prev
    have : l' = [] := by simpa using congrArg List.length h.symm
    subst this
    rfl
  | cons p rest ih =>
    intro l' h i prev
    rcases l' with _ | ⟨p', rest'⟩
    · exact absurd (congrArg List.length h) (by simp)
    · rcases p with ⟨j, t⟩
      rcases p' with ⟨j', t'⟩
      simp only [List.map_cons, List.cons.injEq, Prod.map, id, Prod.mk.injEq] at h
      obtain ⟨⟨hj, hv⟩, hrest⟩ := h
      have hp : percentOf t = percentOf t' := percentOf_congr hv
      simp only [deriveSorted]
      rw [hj, hp, ih hrest (i + 1) (percentOf t')]

/-- The whole per-account assignment reads only the projected fields. -/
theorem assignFor_congr {ts ts' : List Test}
    (h : ts.map vitalFields = ts'.map vitalFields) (e : String) :
    assignFor ts e = assignFor ts' e := by
  unfold assignFor
  exact deriveSorted_congr (sortedGroup_congr h e) 0 0

/-- Idempotence of the recalculation on the record list. -/
theorem recalcTests_idem (ts : List Test) :
    recalcTests (recalcTests ts) = recalcTests ts := by
  apply List.ext_getElem (by rw [recalcTests_length, recalcTests_length])
  intro i h1 h2
  have hi : i < ts.length := by
    rw [recalcTests_length, recalcTests_length] at h1
    exact h1
  have hi' : i < (recalcTests ts).length := by
    rw [recalcTests_length]
    exact hi
  have hvit := recalcTests_map_vitalFields ts
  have hass := assignFor_congr hvit
  have hemail : ((recalcTests ts).get ⟨i, h2⟩).email = (ts.get ⟨i, hi⟩).email := by
    have := map_get_congr (f := vitalFields) hvit i h2 hi
    unfold vitalFields at this
    simpa using congrArg (fun q => q.1) this
  have houter := recalcTests_getElem (recalcTests ts) i h2 h1
  have hinner := recalcTests_getElem ts i hi h2
  show (recalcTests (recalcTests ts)).get ⟨i, h1⟩ = (recalcTests ts).get ⟨i, h2⟩
  rw [houter, hemail, hass, hinner]
  rcases hl : List.lookup i (assignFor ts (ts.get ⟨i, hi⟩).email) with _ | v <;> rfl

/-- C3: recalculation is idempotent — running the Metrics Recalculator
twice in a row produces a state (and in particular derived fields)
identical to running it once. -/
theorem recalculateAll_idempotent (s : AppState) :
    recalculateAll (recalculateAll s) = recalculateAll s := by
  unfold recalculateAll
  simp [recalcTests_idem]

/-- C10: recalculation mutates only the derived fields: the record count,
every record's `email`, `testingDate`, `eventName`, `queueNumber`,
`queueAnchor` and `importId`, and the Import Batch log (and both history
stacks) are unchanged. -/
theorem recalculateAll_frame (s : AppState) :
    (recalculateAll s).allTests.length = s.allTests.length ∧
    (recalculateAll s).allTests.map baseFields = s.allTests.map baseFields ∧
    (recalculateAll s).importHistory = s.importHistory ∧
    (recalculateAll s).undoHistory = s.undoHistory ∧
    (recalculateAll s).redoHistory = s.redoHistory :=
  ⟨recalcTests_length s.allTests, recalcTests_map_baseFields s.allTests, rfl, rfl, rfl⟩

/-! ## queuePercent is always defined after recalculation (claim C5) -/

/-- C5: after recalculation every record's `queuePercent` is a defined
rational: `queueNumber / queueAnchor * 100` when the anchor is present and
positive, `0` when the anchor is absent, and `0` when it is present but
not positive (in particular when it is zero). -/
theorem queuePercent_defined (ts : List Test) (t : Test) (ht : t ∈ recalcTests ts) :
    (t.queueAnchor = none → t.queuePercent = 0) ∧
    (∀ a : Int, t.queueAnchor = some a →
      (a > 0 → t.queuePercent = (t.queueNumber : ℚ) / (a : ℚ) * 100) ∧
      (¬ a > 0 → t.queuePercent = 0)) := by
  obtain ⟨⟨i, hi'⟩, hit⟩ := List.mem_iff_get.mp ht
  have hi : i < ts.length := by
    rw [recalcTests_length] at hi'
    exact hi'
  have hgmem : (i, ts.get ⟨i, hi⟩) ∈ accountGroup ts (ts.get ⟨i, hi⟩).email := by
    rw [mem_accountGroup]
    exact ⟨by simp [List.get?_eq_some], rfl⟩
  have hsmem : (i, ts.get ⟨i, hi⟩) ∈ sortedGroup ts (ts.get ⟨i, hi⟩).email :=
    ((sortedGroup_perm ts (ts.get ⟨i, hi⟩).email).mem_iff).mpr hgmem
  obtain ⟨⟨k, hk⟩, hsk⟩ := List.mem_iff_get.mp hsmem
  obtain ⟨c, hc⟩ := recalc_master ts (ts.get ⟨i, hi⟩).email k hk
  rw [hsk] at hc
  have ht' : t = applyDerived (ts.get ⟨i, hi⟩)
      ((k : Int) + 1, percentOf (ts.get ⟨i, hi⟩), c) := by
    rw [← hit]
    exact (hc hi').symm ▸ rfl
  have hanchor : t.queueAnchor = (ts.get ⟨i, hi⟩).queueAnchor := by
    rw [ht']
    rfl
  have hnumber : t.queueNumber = (ts.get ⟨i, hi⟩).queueNumber := by
    rw [ht']
    rfl
  have hpercent : t.queuePercent = percentOf (ts.get ⟨i, hi⟩) := by
    rw [ht']
    rfl
  constructor
  · intro hno
    rw [hpercent]
    unfold percentOf
    rw [← hanchor, hno]
  · intro a ha
    constructor
    · intro hpos
      rw [hpercent, hnumber]
      unfold percentOf
      rw [← hanchor, ha]
      simp [hpos]
    · intro hneg
      rw [hpercent]
      unfold percentOf
      rw [← hanchor, ha]
      simp [hneg]

/-- Witness for C5 at a concrete dataset: the single recalculated record
of an anchor-less import has `queuePercent = 0`. -/
theorem queuePercent_defined_witness :
    ((recalcTests [⟨"a@b.com", "2026-01-15", "Show", 500, none, "i1", 0, 0, 0⟩]).get
      ⟨0, by rw [recalcTests_length]; decide⟩).queuePercent = 0 :=
  (queuePercent_defined [⟨"a@b.com", "2026-01-15", "Show", 500, none, "i1", 0, 0, 0⟩]
    ((recalcTests [⟨"a@b.com", "2026-01-15", "Show", 500, none, "i1", 0, 0, 0⟩]).get
      ⟨0, by rw [recalcTests_length]; decide⟩)
    (List.get_mem _ 0 (by rw [recalcTests_length]; decide))).1 (by decide)

/-! ## testingNum forms 1..N in stable date order (claim C4) -/

/-- Every entry of a recalculated account group arises from a position of
the pre-recalculation sorted group, and carries `testingNum` one more than
that position. -/
theorem recalc_group_entry (ts : List Test) (e : String) {p : Nat × Test}
    (hp : p ∈ accountGroup (recalcTests ts) e) :
    ∃ (k : Fin (sortedGroup ts e).length) (c : ℚ),
      ((sortedGroup ts e).get k).1 = p.1 ∧
      p.2 = applyDerived ((sortedGroup ts e).get k).2
        ((k.1 : Int) + 1, percentOf ((sortedGroup ts e).get k).2, c) := by
  obtain ⟨hget, hemail⟩ := mem_accountGroup.mp hp
  obtain ⟨hi', hp2⟩ := List.get?_eq_some.mp hget
  have hi : p.1 < ts.length := by
    rw [recalcTests_length] at hi'
    exact hi'
  have hvq := map_get_congr (f := vitalFields) (recalcTests_map_vitalFields ts) p.1 hi' hi
  have hem2 : (ts.get ⟨p.1, hi⟩).email = e := by
    have h1 := congrArg (fun q : String × String × Int × Option Int => q.1) hvq
    simp only [vitalFields] at h1
    rw [hp2] at h1
    rw [← h1]
    exact hemail
  have hgmem : (p.1, ts.get ⟨p.1, hi⟩) ∈ accountGroup ts e :=
    mem_accountGroup.mpr ⟨List.get?_eq_some.mpr ⟨hi, rfl⟩, hem2⟩
  have hsmem := (sortedGroup_perm ts e).mem_iff.mpr hgmem
  obtain ⟨⟨kv, hkv⟩, hsk⟩ := List.mem_iff_get.mp hsmem
  obtain ⟨c, hc⟩ := recalc_master ts e kv hkv
  refine ⟨⟨kv, hkv⟩, c, ?_, ?_⟩
  · rw [hsk]
  · rw [hsk, ← hp2]
    rw [hsk] at hc
    exact hc hi'

/-- Conversely, every position of the sorted group contributes an entry of
the recalculated account group. -/
theorem recalc_group_entry_of_pos (ts : List Test) (e : String)
    (k : Fin (sortedGroup ts e).length) :
    ∃ c : ℚ,
      (((sortedGroup ts e).get k).1,
        applyDerived ((sortedGroup ts e).get k).2
          ((k.1 : Int) + 1, percentOf ((sortedGroup ts e).get k).2, c)) ∈
        accountGroup (recalcTests ts) e := by
  obtain ⟨hget, hemail⟩ := sortedGroup_mem_facts (List.get_mem (sortedGroup ts e) k.1 k.2)
  obtain ⟨hi, hts⟩ := List.get?_eq_some.mp hget
  have hi' : ((sortedGroup ts e).get k).1 < (recalcTests ts).length := by
    rw [recalcTests_length]
    exact hi
  obtain ⟨c, hc⟩ := recalc_master ts e k.1 k.2
  refine ⟨c, mem_accountGroup.mpr ⟨List.get?_eq_some.mpr ⟨hi', hc hi'⟩, hemail⟩⟩

/-- The recalculated account group has as many entries as the sorted
group. -/
theorem recalc_group_length (ts : List Test) (e : String) :
    (accountGroup (recalcTests ts) e).length = (sortedGroup ts e).length := by
  have h1 := accountGroup_congr (recalcTests_map_vitalFields ts) e
  have h2 := congrArg List.length h1
  simp only [List.length_map] at h2
  exact h2.trans (sortedGroup_perm ts e).length_eq.symm

/-- C4: after recalculation, within every account the `testingNum` values
form exactly the contiguous sequence `1..N` (`N` the account's record
count), assigned in ascending `testingDate` order with ties broken by
position in `allTests` (stable sort). -/
theorem testingNum_contiguous_stable (ts : List Test) (e : String) :
    ((accountGroup (recalcTests ts) e).map (fun p => p.2.testingNum)).Perm
      ((List.range (accountGroup (recalcTests ts) e).length).map
        (fun k : Nat => (k : Int) + 1)) ∧
    (∀ p ∈ accountGroup (recalcTests ts) e, ∀ q ∈ accountGroup (recalcTests ts) e,
      (dateValD p.2.testingDate < dateValD q.2.testingDate →
        p.2.testingNum < q.2.testingNum) ∧
      (dateValD p.2.testingDate = dateValD q.2.testingDate → p.1 < q.1 →
        p.2.testingNum < q.2.testingNum)) := by
  constructor
  · have hL : ((accountGroup (recalcTests ts) e).map (fun p => (p.1, p.2.testingNum))).Perm
        ((sortedGroup ts e).enum.map (fun kq => (kq.2.1, (kq.1 : Int) + 1))) := by
      rw [List.perm_ext_iff_of_nodup]
      · intro x
        constructor
        · intro hx
          obtain ⟨p, hp, rfl⟩ := List.mem_map.mp hx
          obtain ⟨k, c, hk1, hk2⟩ := recalc_group_entry ts e hp
          have htn : p.2.testingNum = (k.1 : Int) + 1 := by
            rw [hk2]
            rfl
          refine List.mem_map.mpr ⟨(k.1, (sortedGroup ts e).get k), ?_, ?_⟩
          · exact List.mem_enum_iff_getElem?.mpr
              (by simp [List.getElem?_eq_getElem, k.2, List.get_eq_getElem])
          · simp only
            rw [hk1, htn]
        · intro hx
          obtain ⟨kq, hkq, rfl⟩ := List.mem_map.mp hx
          have hkb := List.mem_enum_iff_getElem?.mp hkq
          have hklt : kq.1 < (sortedGroup ts e).length := by
            by_contra hcon
            rw [List.getElem?_eq_none (by omega)] at hkb
            exact Option.noConfusion hkb
          have hkget : (sortedGroup ts e).get ⟨kq.1, hklt⟩ = kq.2 := by
            rw [List.getElem?_eq_getElem hklt] at hkb
            simpa [List.get_eq_getElem] using Option.some_inj.mp hkb
          obtain ⟨c, hmem⟩ := recalc_group_entry_of_pos ts e ⟨kq.1, hklt⟩
          refine List.mem_map.mpr ⟨_, hmem, ?_⟩
          simp only [applyDerived]
          rw [hkget]
      · apply List.Nodup.of_map Prod.fst
        rw [List.map_map]
        exact accountGroup_keys_nodup (recalcTests ts) e
      · apply List.Nodup.of_map Prod.fst
        rw [List.map_map]
        have hcomp : (Prod.fst ∘ fun kq : Nat × (Nat × Test) => (kq.2.1, (kq.1 : Int) + 1)) =
            Prod.fst ∘ Prod.snd := rfl
        rw [hcomp, ← List.map_map, List.enum_map_snd]
        exact sortedGroup_keys_nodup ts e
    have hs := hL.map Prod.snd
    rw [List.map_map, List.map_map] at hs
    have hc1 : (Prod.snd ∘ fun p : Nat × Test => (p.1, p.2.testingNum)) =
        fun p : Nat × Test => p.2.testingNum := rfl
    have hc2 : (Prod.snd ∘ fun kq : Nat × (Nat × Test) => (kq.2.1, (kq.1 : Int) + 1)) =
        (fun k : Nat => (k : Int) + 1) ∘ Prod.fst := rfl
    rw [hc1, hc2, ← List.map_map, List.enum_map_fst] at hs
    rw [recalc_group_length ts e]
    exact hs
  · intro p hp q hq
    obtain ⟨kp, cp, hkp1, hkp2⟩ := recalc_group_entry ts e hp
    obtain ⟨kq, cq, hkq1, hkq2⟩ := recalc_group_entry ts e hq
    have htnp : p.2.testingNum = (kp.1 : Int) + 1 := by
      rw [hkp2]
      rfl
    have htnq : q.2.testingNum = (kq.1 : Int) + 1 := by
      rw [hkq2]
      rfl
    have hdp : p.2.testingDate = ((sortedGroup ts e).get kp).2.testingDate := by
      rw [hkp2]
      rfl
    have hdq : q.2.testingDate = ((sortedGroup ts e).get kq).2.testingDate := by
      rw [hkq2]
      rfl
    constructor
    · intro hlt
      rw [htnp, htnq]
      have hkk : kp.1 < kq.1 := by
        by_contra hcon
        push_neg at hcon
        rcases Nat.lt_or_ge kq.1 kp.1 with hlt2 | hge
        · have hrel := (sortedGroup_sorted ts e).rel_get_of_lt
            (show kq < kp from hlt2)
          unfold dateLE at hrel
          rw [← hdp, ← hdq] at hrel
          omega
        · have hkk2 : kp = kq := Fin.ext (by omega)
          rw [hkk2, ← hdq] at hdp
          rw [hdp] at hlt
          omega
      omega
    · intro hdate hfst
      rw [htnp, htnq]
      have hpemem : (sortedGroup ts e).get kp ∈ accountGroup ts e :=
        (sortedGroup_perm ts e).subset (List.get_mem _ kp.1 kp.2)
      have hqemem : (sortedGroup ts e).get kq ∈ accountGroup ts e :=
        (sortedGroup_perm ts e).subset (List.get_mem _ kq.1 kq.2)
      have hne : (sortedGroup ts e).get kp ≠ (sortedGroup ts e).get kq := by
        intro heq
        rw [← hkp1, ← hkq1, heq] at hfst
        exact lt_irrefl _ hfst
      rcases pair_sublist_of_mem hpemem hqemem hne with hsub | hsub
      · have hrel : dateLE ((sortedGroup ts e).get kp) ((sortedGroup ts e).get kq) := by
          unfold dateLE
          rw [← hdp, ← hdq, hdate]
        have hsub2 : List.Sublist [(sortedGroup ts e).get kp, (sortedGroup ts e).get kq]
            (sortedGroup ts e) :=
          List.pair_sublist_insertionSort hrel hsub
        obtain ⟨i, j, hij, hie, hje⟩ := pair_sublist_exists_index hsub2
        have hnd : (sortedGroup ts e).Nodup :=
          List.Nodup.of_map Prod.fst (sortedGroup_keys_nodup ts e)
        have hik : i = kp := hnd.get_inj_iff.mp hie
        have hjk : j = kq := hnd.get_inj_iff.mp hje
        rw [hik, hjk] at hij
        omega
      · have hbad := List.pairwise_iff_forall_sublist.mp (accountGroup_pairwise_fst ts e) hsub
        rw [hkp1, hkq1] at hbad
        omega

/-- Witness for C4 at a concrete two-record account: the record imported
second but dated earlier receives the smaller `testingNum`. -/
theorem testingNum_contiguous_stable_witness :
    ((accountGroup (recalcTests
        [⟨"a@b.com", "2026-01-02", "E", 5, none, "i", 0, 0, 0⟩,
         ⟨"a@b.com", "2026-01-01", "E", 7, none, "i", 0, 0, 0⟩]) "a@b.com").get
      ⟨1, by decide⟩).2.testingNum <
    ((accountGroup (recalcTests
        [⟨"a@b.com", "2026-01-02", "E", 5, none, "i", 0, 0, 0⟩,
         ⟨"a@b.com", "2026-01-01", "E", 7, none, "i", 0, 0, 0⟩]) "a@b.com").get
      ⟨0, by decide⟩).2.testingNum :=
  ((testingNum_contiguous_stable
      [⟨"a@b.com", "2026-01-02", "E", 5, none, "i", 0, 0, 0⟩,
       ⟨"a@b.com", "2026-01-01", "E", 7, none, "i", 0, 0, 0⟩] "a@b.com").2
    _ (List.get_mem _ 1 (by decide)) _ (List.get_mem _ 0 (by decide))).1 (by decide)

/-! ## Overall change metric (claim C7) -/

/-- C7: the overall change metric is `null` exactly when the account has
fewer than two records; otherwise it is the `queuePercent` of the
second-to-last chronological record minus the `queuePercent` of the last
one (`chronoTests` being a date-sorted permutation of the account's
records, so that a positive value means the percent decreased over time). -/
theorem getOverallChange_spec (ts : List Test) (e : String) :
    (getOverallChange ts e = none ↔ (ts.filter (fun t => t.email == e)).length < 2) ∧
    (chronoTests ts e).Perm (ts.filter (fun t => t.email == e)) ∧
    (chronoTests ts e).Sorted dateLE' ∧
    ∀ h2 : 2 ≤ (chronoTests ts e).length,
      getOverallChange ts e =
        some (((chronoTests ts e).get
            ⟨(chronoTests ts e).length - 2, by omega⟩).queuePercent -
          ((chronoTests ts e).get
            ⟨(chronoTests ts e).length - 1, by omega⟩).queuePercent) := by
  have hperm : (chronoTests ts e).Perm (ts.filter (fun t => t.email == e)) :=
    List.perm_insertionSort _ _
  refine ⟨?_, hperm, List.sorted_insertionSort _ _, ?_⟩
  · rw [← hperm.length_eq]
    unfold getOverallChange
    by_cases hl : (chronoTests ts e).length < 2
    · rw [dif_pos hl]
      simp [hl]
    · rw [dif_neg hl]
      simp [hl]
  · intro h2
    unfold getOverallChange
    rw [dif_neg (by omega)]

/-- Witness for C7 at a concrete two-record account with stored percents
30 and 10: the metric is the second-to-last percent minus the last. -/
theorem getOverallChange_spec_witness :
    getOverallChange
        [⟨"a@b.com", "2026-01-02", "E", 5, none, "i", 2, 10, 0⟩,
         ⟨"a@b.com", "2026-01-01", "E", 7, none, "i", 1, 30, 0⟩] "a@b.com" =
      some (((chronoTests
          [⟨"a@b.com", "2026-01-02", "E", 5, none, "i", 2, 10, 0⟩,
           ⟨"a@b.com", "2026-01-01", "E", 7, none, "i", 1, 30, 0⟩] "a@b.com").get
        ⟨(chronoTests
          [⟨"a@b.com", "2026-01-02", "E", 5, none, "i", 2, 10, 0⟩,
           ⟨"a@b.com", "2026-01-01", "E", 7, none, "i", 1, 30, 0⟩] "a@b.com").length - 2,
          by decide⟩).queuePercent -
        ((chronoTests
          [⟨"a@b.com", "2026-01-02", "E", 5, none, "i", 2, 10, 0⟩,
           ⟨"a@b.com", "2026-01-01", "E", 7, none, "i", 1, 30, 0⟩] "a@b.com").get
        ⟨(chronoTests
          [⟨"a@b.com", "2026-01-02", "E", 5, none, "i", 2, 10, 0⟩,
           ⟨"a@b.com", "2026-01-01", "E", 7, none, "i", 1, 30, 0⟩] "a@b.com").length - 1,
          by decide⟩).queuePercent) :=
  (getOverallChange_spec
    [⟨"a@b.com", "2026-01-02", "E", 5, none, "i", 2, 10, 0⟩,
     ⟨"a@b.com", "2026-01-01", "E", 7, none, "i", 1, 30, 0⟩] "a@b.com").2.2.2 (by decide)

/-! ## Anchor resolver (claim C6) -/

/-- Appending one record extends an event's anchor-less number list by at
most that record's number. -/
theorem anchorlessNums_append (l : List Test) (t : Test) (ev : String) :
    anchorlessNums (l ++ [t]) ev =
      anchorlessNums l ev ++
        (if t.eventName == ev && t.queueAnchor == none then [t.queueNumber] else []) := by
  unfold anchorlessNums
  rw [List.filter_append, List.map_append]
  congr 1
  rcases hb : (t.eventName == ev && t.queueAnchor == none) with _ | _ <;>
    simp [List.filter, hb]

/-- Foldl characterization of the anchor-less event keys. -/
theorem mem_anchorlessKeys_aux (ev : String) : ∀ (l : List Test) (acc : List String),
    (ev ∈ l.foldl (fun acc t =>
        if t.queueAnchor = none ∧ ¬ acc.contains t.eventName then acc ++ [t.eventName]
        else acc) acc) ↔
      ev ∈ acc ∨ ∃ t ∈ l, t.eventName = ev ∧ t.queueAnchor = none := by
  intro l
  induction l with
  | nil =>
    intro acc
    simp
  | cons t rest ih =>
    intro acc
    rw [List.foldl_cons, ih]
    by_cases hc : t.queueAnchor = none ∧ ¬ acc.contains t.eventName
    · rw [if_pos hc]
      simp only [List.mem_append, List.mem_cons, List.not_mem_nil, or_false]
      constructor
      · rintro ((h | rfl) | h)
        · exact Or.inl h
        · exact Or.inr ⟨t, Or.inl rfl, rfl, hc.1⟩
        · obtain ⟨u, hu, hue, hua⟩ := h
          exact Or.inr ⟨u, Or.inr hu, hue, hua⟩
      · rintro (h | ⟨u, (rfl | hu), hue, hua⟩)
        · exact Or.inl (Or.inl h)
        · exact Or.inl (Or.inr hue.symm)
        · exact Or.inr ⟨u, hu, hue, hua⟩
    · rw [if_neg hc]
      simp only [List.mem_cons]
      constructor
      · rintro (h | ⟨u, hu, hue, hua⟩)
        · exact Or.inl h
        · exact Or.inr ⟨u, Or.inr hu, hue, hua⟩
      · rintro (h | ⟨u, (rfl | hu), hue, hua⟩)
        · exact Or.inl h
        · left
          rw [Classical.not_and_iff_or_not_not, not_not] at hc
          rcases hc with hc | hc
          · exact absurd hua hc
          · rw [← hue]
            exact List.elem_iff.mp hc
        · exact Or.inr ⟨u, hu, hue, hua⟩

/-- The anchor-less event keys are exactly the events owning an
anchor-less record. -/
theorem mem_anchorlessEventKeys {l : List Test} {ev : String} :
    ev ∈ anchorlessEventKeys l ↔ ∃ t ∈ l, t.eventName = ev ∧ t.queueAnchor = none := by
  unfold anchorlessEventKeys
  rw [mem_anchorlessKeys_aux]
  simp

/-- The key list never repeats an event. -/
theorem anchorlessEventKeys_nodup (l : List Test) : (anchorlessEventKeys l).Nodup := by
  suffices h : ∀ (l : List Test) (acc : List String), acc.Nodup →
      (l.foldl (fun acc t =>
        if t.queueAnchor = none ∧ ¬ acc.contains t.eventName then acc ++ [t.eventName]
        else acc) acc).Nodup by
    exact h l [] List.nodup_nil
  intro l
  induction l with
  | nil =>
    intro acc hacc
    exact hacc
  | cons t rest ih =>
    intro acc hacc
    rw [List.foldl_cons]
    by_cases hc : t.queueAnchor = none ∧ ¬ acc.contains t.eventName
    · rw [if_pos hc]
      refine ih _ ?_
      rw [List.nodup_append]
      exact ⟨hacc, List.nodup_singleton _,
        by simpa using fun hmem => hc.2 (List.elem_iff.mpr hmem)⟩
    · rw [if_neg hc]
      exact ih _ hacc

/-- One-step unfolding of the key accumulation from the right. -/
theorem anchorlessEventKeys_concat (l : List Test) (t : Test) :
    anchorlessEventKeys (l ++ [t]) =
      if t.queueAnchor = none ∧ ¬ (anchorlessEventKeys l).contains t.eventName then
        anchorlessEventKeys l ++ [t.eventName]
      else anchorlessEventKeys l := by
  unfold anchorlessEventKeys
  rw [List.foldl_append]
  rfl

/-- One-step unfolding of the event table from the right. -/
theorem buildEvents_concat (l : List Test) (t : Test) :
    buildEvents (l ++ [t]) =
      if t.queueAnchor = none then addEvent (buildEvents l) t.eventName t.queueNumber
      else buildEvents l := by
  unfold buildEvents
  rw [List.foldl_append]
  rfl

/-- An event without anchor-less records has an empty number list. -/
theorem anchorlessNums_nil_of_not_mem {l : List Test} {ev : String}
    (h : ev ∉ anchorlessEventKeys l) : anchorlessNums l ev = [] := by
  by_contra hne
  apply h
  rw [mem_anchorlessEventKeys]
  unfold anchorlessNums at hne
  rcases hf : l.filter (fun t => t.eventName == ev && t.queueAnchor == none) with _ | ⟨x, rest⟩
  · rw [hf] at hne
    simp at hne
  · have hx : x ∈ l.filter (fun t => t.eventName == ev && t.queueAnchor == none) := by
      rw [hf]
      exact List.mem_cons_self _ _
    have hx2 := List.mem_filter.mp hx
    refine ⟨x, hx2.1, ?_, ?_⟩
    · have := hx2.2
      simp only [Bool.and_eq_true, beq_iff_eq] at this
      exact this.1
    · have := hx2.2
      simp only [Bool.and_eq_true, beq_iff_eq] at this
      exact this.2

/-- The `events` table is exactly the anchor-less keys paired with their
anchor-less queue numbers. -/
theorem buildEvents_eq (l : List Test) :
    buildEvents l = (anchorlessEventKeys l).map (fun ev => (ev, anchorlessNums l ev)) := by
  induction l using List.reverseRecOn with
  | nil => rfl
  | append_singleton l t ih =>
    rw [buildEvents_concat, anchorlessEventKeys_concat]
    by_cases ha : t.queueAnchor = none
    · by_cases hcont : (anchorlessEventKeys l).contains t.eventName
      · rw [if_pos ha, if_neg (fun hcon => hcon.2 hcont), ih]
        unfold addEvent
        have hany : ((anchorlessEventKeys l).map
            (fun ev => (ev, anchorlessNums l ev))).any (fun p => p.1 == t.eventName) = true := by
          rw [List.any_eq_true]
          exact ⟨(t.eventName, anchorlessNums l t.eventName),
            List.mem_map_of_mem _ (List.elem_iff.mp hcont), by simp⟩
        rw [if_pos hany, List.map_map]
        apply List.map_congr_left
        intro ev hev
        by_cases hveq : ev = t.eventName
        · subst hveq
          simp [anchorlessNums_append, ha]
        · have hb1 : (ev == t.eventName) = false := by simpa using hveq
          simp only [Function.comp_apply, hb1, Bool.false_eq_true, if_false,
            anchorlessNums_append]
          have hb2 : (t.eventName == ev) = false := by
            simpa using fun hx => hveq hx.symm
          simp [hb2]
      · rw [if_pos ha, if_pos ⟨ha, fun hm => hcont hm⟩, ih]
        unfold addEvent
        have hany : ((anchorlessEventKeys l).map
            (fun ev => (ev, anchorlessNums l ev))).any (fun p => p.1 == t.eventName) = false := by
          rw [List.any_eq_false]
          rintro p hp
          obtain ⟨ev, hev, rfl⟩ := List.mem_map.mp hp
          simp only [beq_iff_eq]
          intro heq
          exact absurd (List.elem_iff.mpr (heq ▸ hev)) hcont
        rw [if_neg (by simp [hany]), List.map_append]
        congr 1
        · apply List.map_congr_left
          intro ev hev
          rw [anchorlessNums_append]
          have hb2 : (t.eventName == ev) = false := by
            simp only [beq_eq_false_iff_ne, ne_eq]
            intro heq
            exact absurd (List.elem_iff.mpr (heq ▸ hev)) hcont
          simp [hb2]
        · simp only [List.map_cons, List.map_nil]
          have hnil : anchorlessNums l t.eventName = [] :=
            anchorlessNums_nil_of_not_mem (fun hm => hcont (List.elem_iff.mpr hm))
          rw [anchorlessNums_append]
          simp [hnil, ha]
    · rw [if_neg ha, if_neg (fun hcon => ha hcon.1), ih]
      apply List.map_congr_left
      intro ev hev
      rw [anchorlessNums_append]
      have hb : (t.queueAnchor == none) = false := by
        simpa using ha
      simp [hb]

/-- The resolver loop emits exactly one warning per event entry, in table
order. -/
theorem applyAnchors_fst : ∀ (evs : List (String × List Int)) (b : List Test),
    (applyAnchors evs b).1 =
      evs.map (fun p => anchorWarning p.1 (ceilTo1000 (maxList p.2))) := by
  intro evs
  induction evs with
  | nil =>
    intro b
    rfl
  | cons p rest ih =>
    intro b
    rcases p with ⟨ev, nums⟩
    simp [applyAnchors, ih]

/-- Lookup in an association table built over distinct keys. -/
theorem find_keys_map (g : String → List Int) (x : String) :
    ∀ (keys : List String),
      (keys.map (fun ev => (ev, g ev))).find? (fun p => p.1 == x) =
        if x ∈ keys then some (x, g x) else none := by
  intro keys
  induction keys with
  | nil => rfl
  | cons a rest ih =>
    by_cases hax : a = x
    · subst hax
      rw [List.map_cons, List.find?_cons_of_pos _ (by simp)]
      simp
    · rw [List.map_cons, List.find?_cons_of_neg _ (by simpa using hax), ih]
      by_cases hxr : x ∈ rest
      · rw [if_pos hxr, if_pos (List.mem_cons_of_mem a hxr)]
      · rw [if_neg hxr, if_neg (show ¬ x ∈ a :: rest by
          simp only [List.mem_cons, hxr, or_false]
          exact fun h => hax h.symm)]

/-- The resolver loop assigns, to every record whose event is listed with
distinct keys, the anchor of its own event — and touches nothing else. -/
theorem applyAnchors_snd : ∀ (evs : List (String × List Int)) (b : List Test),
    ((evs.map Prod.fst).Nodup) →
    (applyAnchors evs b).2 = b.map (fun t =>
      match evs.find? (fun p => p.1 == t.eventName) with
      | some pr =>
        if t.queueAnchor = none then
          { t with queueAnchor := some (ceilTo1000 (maxList pr.2)) }
        else t
      | none => t) := by
  intro evs
  induction evs with
  | nil =>
    intro b _
    simp [applyAnchors]
  | cons p rest ih =>
    intro b hnd
    rcases p with ⟨ev, nums⟩
    have hndr : ((rest.map Prod.fst).Nodup) := (List.nodup_cons.mp (by simpa using hnd)).2
    have hevr : ev ∉ rest.map Prod.fst := (List.nodup_cons.mp (by simpa using hnd)).1
    have hstep : (applyAnchors ((ev, nums) :: rest) b).2 =
        (applyAnchors rest (b.map (fun u =>
          if u.eventName == ev && u.queueAnchor == none then
            { u with queueAnchor := some (ceilTo1000 (maxList nums)) }
          else u))).2 := by
      simp [applyAnchors]
    rw [hstep, ih _ hndr, List.map_map]
    apply List.map_congr_left
    intro t ht
    simp only [Function.comp_apply]
    rcases hb : (t.eventName == ev && t.queueAnchor == none) with _ | _
    · simp only [hb, Bool.false_eq_true, if_false]
      by_cases he : ev = t.eventName
      · have hanot : ¬ t.queueAnchor = none := by
          intro hnone
          simp [he, hnone] at hb
        have hfr : rest.find? (fun p => p.1 == t.eventName) = none := by
          apply List.find?_eq_none.mpr
          intro pr hpr
          simp only [beq_iff_eq]
          intro hpe
          exact hevr (he ▸ hpe ▸ List.mem_map_of_mem Prod.fst hpr)
        rw [hfr, List.find?_cons_of_pos _ (by simp [he])]
        simp [hanot]
      · rw [List.find?_cons_of_neg _ (by simpa using he)]
    · have hb2 := hb
      simp only [Bool.and_eq_true, beq_iff_eq] at hb2
      obtain ⟨hname, hanone⟩ := hb2
      have hfr : rest.find? (fun p => p.1 == t.eventName) = none := by
        apply List.find?_eq_none.mpr
        intro pr hpr
        simp only [beq_iff_eq]
        intro hpe
        exact hevr (hname ▸ hpe ▸ List.mem_map_of_mem Prod.fst hpr)
      have hfr2 : rest.find? (fun p => p.1 == ev) = none := by
        rw [← hname]
        exact hfr
      simp [List.find?, hb, hfr, hfr2, hname, hanone]

/-- C6: for each event having at least one anchor-less record in the
imported batch, the resolver assigns
`ceil(max(queueNumber over that event's anchor-less records)/1000)*1000`
to every anchor-less record of that event, emits exactly one warning per
such event (none for events whose records all carry anchors), and appends
the batch after the previously stored records without modifying them. -/
theorem processNewTests_spec (prior batch : List Test) :
    (processNewTests prior batch).2 =
      prior ++ batch.map (fun t =>
        if t.queueAnchor = none then
          { t with queueAnchor := some (eventAnchor batch t.eventName) } else t) ∧
    (processNewTests prior batch).1 =
      (anchorlessEventKeys batch).map (fun ev => anchorWarning ev (eventAnchor batch ev)) ∧
    (anchorlessEventKeys batch).Nodup ∧
    (∀ ev, ev ∈ anchorlessEventKeys batch ↔
      ∃ t ∈ batch, t.eventName = ev ∧ t.queueAnchor = none) := by
  have hkeys : (buildEvents batch).map Prod.fst = anchorlessEventKeys batch := by
    rw [buildEvents_eq, List.map_map]
    rw [show (Prod.fst ∘ fun ev => (ev, anchorlessNums batch ev)) = id from rfl, List.map_id]
  have hnd : ((buildEvents batch).map Prod.fst).Nodup :=
    hkeys ▸ anchorlessEventKeys_nodup batch
  refine ⟨?_, ?_, anchorlessEventKeys_nodup batch, fun ev => mem_anchorlessEventKeys⟩
  · have hp2 : (processNewTests prior batch).2 =
        prior ++ (applyAnchors (buildEvents batch) batch).2 := by
      simp [processNewTests]
    rw [hp2, applyAnchors_snd _ _ hnd]
    congr 1
    apply List.map_congr_left
    intro t ht
    rw [buildEvents_eq, find_keys_map]
    by_cases ha : t.queueAnchor = none
    · have hmem : t.eventName ∈ anchorlessEventKeys batch :=
        mem_anchorlessEventKeys.mpr ⟨t, ht, rfl, ha⟩
      simp [hmem, ha, eventAnchor]
    · by_cases hm : t.eventName ∈ anchorlessEventKeys batch
      · simp [hm, ha]
      · simp [hm, ha]
  · have hp1 : (processNewTests prior batch).1 =
        (applyAnchors (buildEvents batch) batch).1 := by
      simp [processNewTests]
    rw [hp1, applyAnchors_fst, buildEvents_eq, List.map_map]
    apply List.map_congr_left
    intro ev hev
    rfl

/-! ## Undo/redo around mutations (claim C1) -/

/-- A successful parse never returns an empty batch. -/
theorem parseCSV_ok_ne_nil {csv : Csv} {ts : List Test} (h : parseCSV csv = .ok ts) :
    ts ≠ [] := by
  unfold parseCSV at h
  split at h
  · exact absurd h (by simp)
  · split at h
    split_ifs at h with h1 h2
    obtain rfl := Except.ok.inj h
    exact h2

/-- `undo` never touches the import log. -/
theorem undoOp_importHistory (s : AppState) : (undoOp s).importHistory = s.importHistory := by
  unfold undoOp
  split <;> rfl

/-- `redo` never touches the import log. -/
theorem redoOp_importHistory (s : AppState) : (redoOp s).importHistory = s.importHistory := by
  unfold redoOp
  split <;> rfl

/-- After a mutation that snapshotted the consistent state `s` first and
ended in the consistent state `s'`, `undo` restores the tests of `s` and
the immediately following `redo` restores the tests of `s'`; the import
log keeps its post-mutation value through both. -/
theorem undo_redo_of_snapshot (s s' : AppState)
    (hcons : recalcTests s.allTests = s.allTests)
    (hcons' : recalcTests s'.allTests = s'.allTests)
    (hu : s'.undoHistory = (saveToHistory s).undoHistory)
    (hr : s'.redoHistory = []) :
    (undoOp s').allTests = s.allTests ∧
    (undoOp s').importHistory = s'.importHistory ∧
    (redoOp (undoOp s')).allTests = s'.allTests ∧
    (redoOp (undoOp s')).importHistory = s'.importHistory := by
  have hlast : s'.undoHistory.getLast? = some s.allTests := by
    rw [hu]
    exact (saveToHistory_spec s).1
  have hundo : undoOp s' = { s' with
      redoHistory := s'.redoHistory ++ [s'.allTests]
      allTests := recalcTests s.allTests
      undoHistory := s'.undoHistory.dropLast } := by
    unfold undoOp
    rw [hlast]
  have hredo2 : (undoOp s').redoHistory = [s'.allTests] := by
    rw [hundo]
    show s'.redoHistory ++ [s'.allTests] = [s'.allTests]
    rw [hr]
    rfl
  refine ⟨by rw [hundo]; exact hcons, undoOp_importHistory s', ?_,
    (redoOp_importHistory _).trans (undoOp_importHistory s')⟩
  unfold redoOp
  rw [hredo2]
  have hgl : ([s'.allTests] : List (List Test)).getLast? = some s'.allTests := rfl
  rw [hgl]
  exact hcons'

/-- C1 (amended): if the pre-mutation state is recalculation-consistent
and the mutation actually fires, `undo()` restores the Test Record
collection deep-equal to the pre-mutation one and `redo()` immediately
after restores the post-mutation collection — but the Import Batch list
is not part of the snapshot: through both `undo()` and `redo()` it keeps
its post-mutation value. -/
theorem undo_redo_restore_tests (s : AppState) (m : Mutation)
    (hcons : recalcTests s.allTests = s.allTests) (hm : mutationFires s m) :
    (undoOp (applyMutation s m)).allTests = s.allTests ∧
    (undoOp (applyMutation s m)).importHistory = (applyMutation s m).importHistory ∧
    (redoOp (undoOp (applyMutation s m))).allTests = (applyMutation s m).allTests ∧
    (redoOp (undoOp (applyMutation s m))).importHistory =
      (applyMutation s m).importHistory := by
  cases m with
  | importOp csv iid fn d =>
    obtain ⟨ts, hok⟩ := hm
    have hne := parseCSV_ok_ne_nil hok
    have happ : applyMutation s (.importOp csv iid fn d) =
        recalculateAll { saveToHistory s with
          allTests := (processNewTests (saveToHistory s).allTests
            (ts.map (fun t => { t with importId := iid }))).2
          importHistory := (saveToHistory s).importHistory ++ [⟨iid, fn, d, ts.length⟩] } := by
      show importCSVOp s csv iid fn d = _
      unfold importCSVOp
      rw [hok]
      dsimp only
      rw [if_neg (by simpa [List.length_eq_zero] using hne)]
    rw [happ]
    apply undo_redo_of_snapshot s _ hcons
    · exact recalcTests_idem _
    · rfl
    · rfl
  | clearAll =>
    have happ : applyMutation s .clearAll = { saveToHistory s with allTests := [] } := rfl
    rw [happ]
    apply undo_redo_of_snapshot s _ hcons
    · rfl
    · rfl
    · rfl
  | removeImport iid =>
    obtain ⟨b, hb, hbid⟩ := hm
    obtain ⟨x, hx⟩ : ∃ x, s.importHistory.find? (fun i => i.id == iid) = some x :=
      Option.isSome_iff_exists.mp (List.find?_isSome.mpr ⟨b, hb, by simp [hbid]⟩)
    have happ : applyMutation s (.removeImport iid) = recalculateAll
        { saveToHistory s with
          allTests := (saveToHistory s).allTests.filter (fun t => !(t.importId == iid))
          importHistory := (saveToHistory s).importHistory.filter (fun i => !(i.id == iid)) } := by
      show removeImportOp s iid = _
      unfold removeImportOp
      rw [hx]
    rw [happ]
    apply undo_redo_of_snapshot s _ hcons
    · exact recalcTests_idem _
    · rfl
    · rfl

/-- Counterexample to C1 as stated: from a consistent one-import state,
removing the import batch and undoing restores the Test Records but NOT
the Import Batch list — the restored dataset is not deep-equal to the
pre-mutation dataset. -/
theorem undo_does_not_restore_importHistory :
    (undoOp (removeImportOp
        ⟨[⟨"a@b.com", "2026-01-15", "E", 5, none, "b1", 1, 0, 0⟩],
          [⟨"b1", "f.csv", "2026-01-01", 1⟩], [], []⟩ "b1")).allTests =
      [⟨"a@b.com", "2026-01-15", "E", 5, none, "b1", 1, 0, 0⟩] ∧
    (undoOp (removeImportOp
        ⟨[⟨"a@b.com", "2026-01-15", "E", 5, none, "b1", 1, 0, 0⟩],
          [⟨"b1", "f.csv", "2026-01-01", 1⟩], [], []⟩ "b1")).importHistory ≠
      [⟨"b1", "f.csv", "2026-01-01", 1⟩] := by
  decide

/-- Witness for the amended C1 at the same concrete state. -/
theorem undo_redo_restore_tests_witness :
    (undoOp (applyMutation
        ⟨[⟨"a@b.com", "2026-01-15", "E", 5, none, "b1", 1, 0, 0⟩],
          [⟨"b1", "f.csv", "2026-01-01", 1⟩], [], []⟩
        (Mutation.removeImport "b1"))).allTests =
      [⟨"a@b.com", "2026-01-15", "E", 5, none, "b1", 1, 0, 0⟩] ∧
    (redoOp (undoOp (applyMutation
        ⟨[⟨"a@b.com", "2026-01-15", "E", 5, none, "b1", 1, 0, 0⟩],
          [⟨"b1", "f.csv", "2026-01-01", 1⟩], [], []⟩
        (Mutation.removeImport "b1")))).allTests =
      (applyMutation
        ⟨[⟨"a@b.com", "2026-01-15", "E", 5, none, "b1", 1, 0, 0⟩],
          [⟨"b1", "f.csv", "2026-01-01", 1⟩], [], []⟩
        (Mutation.removeImport "b1")).allTests :=
  ⟨(undo_redo_restore_tests
      ⟨[⟨"a@b.com", "2026-01-15", "E", 5, none, "b1", 1, 0, 0⟩],
        [⟨"b1", "f.csv", "2026-01-01", 1⟩], [], []⟩
      (Mutation.removeImport "b1") (by decide)
      ⟨⟨"b1", "f.csv", "2026-01-01", 1⟩, by decide, rfl⟩).1,
   (undo_redo_restore_tests
      ⟨[⟨"a@b.com", "2026-01-15", "E", 5, none, "b1", 1, 0, 0⟩],
        [⟨"b1", "f.csv", "2026-01-01", 1⟩], [], []⟩
      (Mutation.removeImport "b1") (by decide)
      ⟨⟨"b1", "f.csv", "2026-01-01", 1⟩, by decide, rfl⟩).2.2.1⟩
